import Mathlib

/-!
Verification of the json-diff repository: a shallow embedding of its
tree-diff / patch / merge engine (src/index.js and the merge module) in
Lean 4, followed by theorems settling the frozen claims about it.

JavaScript runtime conventions that the source relies on are modelled
explicitly: `typeof`, truthiness, `Object.keys` enumeration (insertion
order; objects reachable from JSON never have duplicate keys, which the
well-formedness predicate `wfJson` records), string `split`/`replace`,
`parseInt`, `Array.prototype.splice`, and silent discarding of property
writes on primitives in sloppy mode.  Numbers are modelled as integers,
which is exact for every input the claims mention.  A `TypeError` thrown
at run time is modelled by `Option`/`none`.
-/

namespace JsonDiff

/-- A JSON value as produced by `JSON.parse`: object fields are kept in
insertion order. -/
inductive Json where
  | null : Json
  | bool : Bool → Json
  | num : Int → Json
  | str : String → Json
  | arr : List Json → Json
  | obj : List (String × Json) → Json

mutual

/-- Structural equality of JSON values; this models the result of
comparing `JSON.stringify` output of two well-formed values, and also
strict `===` on primitive values. -/
def beqJ : Json → Json → Bool
  | .null, .null => true
  | .bool a, .bool b => a == b
  | .num a, .num b => a == b
  | .str a, .str b => a == b
  | .arr xs, .arr ys => beqL xs ys
  | .obj fs, .obj gs => beqF fs gs
  | _, _ => false

/-- Elementwise structural equality of JSON arrays. -/
def beqL : List Json → List Json → Bool
  | [], [] => true
  | x :: xs, y :: ys => beqJ x y && beqL xs ys
  | _, _ => false

/-- Fieldwise structural equality of JSON object field lists. -/
def beqF : List (String × Json) → List (String × Json) → Bool
  | [], [] => true
  | (k, v) :: fs, (l, w) :: gs => k == l && beqJ v w && beqF fs gs
  | _, _ => false

end

theorem beq_sound_aux (n : Nat) :
    (∀ a b : Json, sizeOf a ≤ n → beqJ a b = true → a = b) ∧
    (∀ xs ys : List Json, sizeOf xs ≤ n → beqL xs ys = true → xs = ys) ∧
    (∀ fs gs : List (String × Json), sizeOf fs ≤ n → beqF fs gs = true → fs = gs) := by
  induction n with
  | zero =>
    refine ⟨fun a b hs => ?_, fun xs ys hs => ?_, fun fs gs hs => ?_⟩
    · exfalso; cases a <;> simp at hs
    · exfalso; cases xs <;> simp at hs
    · exfalso; cases fs <;> simp at hs
  | succ n ih =>
    obtain ⟨ihJ, ihL, ihF⟩ := ih
    refine ⟨fun a b hs h => ?_, fun xs ys hs h => ?_, fun fs gs hs h => ?_⟩
    · cases a <;> cases b <;> simp [beqJ] at h <;>
        first
        | rfl
        | (exact congrArg _ h)
        | skip
      · exact congrArg Json.arr (ihL _ _ (by simp at hs; omega) h)
      · exact congrArg Json.obj (ihF _ _ (by simp at hs; omega) h)
    · cases xs <;> cases ys
      · rfl
      · exact absurd h (by simp [beqL])
      · exact absurd h (by simp [beqL])
      · rename_i x xs y ys
        simp only [beqL, Bool.and_eq_true] at h
        rw [ihJ x y (by simp at hs; omega) h.1, ihL xs ys (by simp at hs; omega) h.2]
    · cases fs <;> cases gs
      · rfl
      · exact absurd h (by simp [beqF])
      · exact absurd h (by simp [beqF])
      · rename_i kv fs lw gs
        obtain ⟨k, v⟩ := kv
        obtain ⟨l, w⟩ := lw
        simp only [beqF, Bool.and_eq_true, beq_iff_eq] at h
        rw [h.1.1, ihJ v w (by simp at hs; omega) h.1.2,
          ihF fs gs (by simp at hs; omega) h.2]

theorem beq_refl_aux (n : Nat) :
    (∀ a : Json, sizeOf a ≤ n → beqJ a a = true) ∧
    (∀ xs : List Json, sizeOf xs ≤ n → beqL xs xs = true) ∧
    (∀ fs : List (String × Json), sizeOf fs ≤ n → beqF fs fs = true) := by
  induction n with
  | zero =>
    refine ⟨fun a hs => ?_, fun xs hs => ?_, fun fs hs => ?_⟩
    · exfalso; cases a <;> simp at hs
    · exfalso; cases xs <;> simp at hs
    · exfalso; cases fs <;> simp at hs
  | succ n ih =>
    obtain ⟨ihJ, ihL, ihF⟩ := ih
    refine ⟨fun a hs => ?_, fun xs hs => ?_, fun fs hs => ?_⟩
    · cases a <;> simp only [beqJ, beq_self_eq_true]
      · exact ihL _ (by simp at hs; omega)
      · exact ihF _ (by simp at hs; omega)
    · cases xs
      · rfl
      · rename_i x xs
        simp only [beqL, Bool.and_eq_true]
        exact ⟨ihJ x (by simp at hs; omega), ihL xs (by simp at hs; omega)⟩
    · cases fs
      · rfl
      · rename_i kv fs
        obtain ⟨k, v⟩ := kv
        simp only [beqF, Bool.and_eq_true, beq_self_eq_true, true_and]
        exact ⟨ihJ v (by simp at hs; omega), ihF fs (by simp at hs; omega)⟩

theorem beqJ_eq {a b : Json} (h : beqJ a b = true) : a = b :=
  (beq_sound_aux (sizeOf a)).1 a b (Nat.le_refl _) h

theorem beqJ_refl (a : Json) : beqJ a a = true :=
  (beq_refl_aux (sizeOf a)).1 a (Nat.le_refl _)

theorem beqJ_iff (a b : Json) : beqJ a b = true ↔ a = b :=
  ⟨beqJ_eq, fun h => h ▸ beqJ_refl a⟩

instance : DecidableEq Json := fun a b => decidable_of_iff (beqJ a b = true) (beqJ_iff a b)

/-- Decimal digit character, `digitChar 3 = '3'`. -/
def digitChar (n : Nat) : Char := Char.ofNat (48 + n)

/-- Accumulator loop producing the decimal digits of `n` in front of `acc`. -/
def natToStrAux : Nat → List Char → List Char
  | 0, acc => acc
  | n + 1, acc => natToStrAux ((n + 1) / 10) (digitChar ((n + 1) % 10) :: acc)

/-- The decimal digit list of `n` (empty for `0`). -/
def digitsOf (n : Nat) : List Char := natToStrAux n []

/-- Decimal rendering of a natural number, modelling the string that
JavaScript uses as the property key of array index `n`. -/
def natToStr (n : Nat) : String := if n = 0 then "0" else ⟨digitsOf n⟩

/-- Value of a decimal digit list read most-significant first. -/
def valOf (l : List Char) : Nat := l.foldl (fun a c => a * 10 + (c.toNat - 48)) 0

theorem natToStrAux_acc : ∀ (n : Nat) (acc : List Char),
    natToStrAux n acc = natToStrAux n [] ++ acc
  | 0, acc => by simp [natToStrAux]
  | n + 1, acc => by
    rw [natToStrAux, natToStrAux,
      natToStrAux_acc ((n + 1) / 10) (digitChar ((n + 1) % 10) :: acc),
      natToStrAux_acc ((n + 1) / 10) [digitChar ((n + 1) % 10)]]
    simp
  termination_by n => n
  decreasing_by
    all_goals exact Nat.div_lt_self (Nat.succ_pos n) (by omega)

theorem digitsOf_succ (n : Nat) (h : n ≠ 0) :
    digitsOf n = digitsOf (n / 10) ++ [digitChar (n % 10)] := by
  match n, h with
  | n + 1, _ =>
    show natToStrAux (n + 1) [] = _
    rw [natToStrAux, natToStrAux_acc]
    rfl

theorem toNat_digitChar (d : Nat) (h : d < 10) : (digitChar d).toNat = 48 + d := by
  interval_cases d <;> decide

theorem valOf_append_digit (l : List Char) (c : Char) :
    valOf (l ++ [c]) = valOf l * 10 + (c.toNat - 48) := by
  simp [valOf, List.foldl_append]

theorem valOf_digitsOf (n : Nat) : valOf (digitsOf n) = n := by
  induction n using Nat.strong_induction_on with
  | _ n ih =>
    match n with
    | 0 => simp [digitsOf, natToStrAux, valOf]
    | m + 1 =>
      rw [digitsOf_succ (m + 1) (Nat.succ_ne_zero m), valOf_append_digit,
        ih ((m + 1) / 10) (Nat.div_lt_self (Nat.succ_pos m) (by omega)),
        toNat_digitChar _ (Nat.mod_lt _ (by omega))]
      omega

theorem natToStr_inj (m n : Nat) (h : natToStr m = natToStr n) : m = n := by
  have hm := valOf_digitsOf m
  have hn := valOf_digitsOf n
  have hz : valOf ['0'] = 0 := by decide
  by_cases h0 : m = 0
  · by_cases h1 : n = 0
    · omega
    · exfalso
      rw [natToStr, if_pos h0, natToStr, if_neg h1] at h
      have hd : digitsOf n = ['0'] := by
        have := congrArg String.data h
        simpa using this.symm
      rw [hd, hz] at hn
      omega
  · by_cases h1 : n = 0
    · exfalso
      rw [natToStr, if_neg h0, natToStr, if_pos h1] at h
      have hd : digitsOf m = ['0'] := by
        have := congrArg String.data h
        simpa using this
      rw [hd, hz] at hm
      omega
    · rw [natToStr, if_neg h0, natToStr, if_neg h1] at h
      have hd : digitsOf m = digitsOf n := by
        have := congrArg String.data h
        simpa using this
      rw [← hm, ← hn, hd]


/-- The JavaScript `typeof` operator restricted to JSON values; note that
`typeof null`, arrays and plain objects all give `"object"`. -/
def jsTypeof : Json → String
  | .null => "object"
  | .bool _ => "boolean"
  | .num _ => "number"
  | .str _ => "string"
  | .arr _ => "object"
  | .obj _ => "object"

/-- JavaScript truthiness of a JSON value. -/
def truthy : Json → Bool
  | .null => false
  | .bool b => b
  | .num n => n != 0
  | .str s => s != ""
  | .arr _ => true
  | .obj _ => true

/-- Whether a value is exactly `null`. -/
def isNull : Json → Bool
  | .null => true
  | _ => false

/-- First-occurrence lookup in a field list, modelling JS property read
on a plain object. -/
def lookupF {β : Type} : List (String × β) → String → Option β
  | [], _ => none
  | (k, v) :: fs, key => if k = key then some v else lookupF fs key

/-- JS property assignment on an object: overwrite an existing key in
place, otherwise append the new key at the end. -/
def setKey {β : Type} : List (String × β) → String → β → List (String × β)
  | [], key, v => [(key, v)]
  | (k, w) :: fs, key, v =>
    if k = key then (k, v) :: fs else (k, w) :: setKey fs key v

/-- JS `delete` of an object key. -/
def eraseKey {β : Type} : List (String × β) → String → List (String × β)
  | [], _ => []
  | (k, w) :: fs, key => if k = key then fs else (k, w) :: eraseKey fs key

/-- Whether a key occurs in a field list. -/
def hasKey {β : Type} (fs : List (String × β)) (k : String) : Bool := (lookupF fs k).isSome

/-- The indexed entries of an array, with decimal string keys, starting
at index `i`. -/
def enumFrom : Nat → List Json → List (String × Json)
  | _, [] => []
  | i, x :: xs => (natToStr i, x) :: enumFrom (i + 1) xs

/-- The indexed entries of a string: each character as a one-character
string under its decimal index key. -/
def strChars : Nat → List Char → List (String × Json)
  | _, [] => []
  | i, c :: cs => (natToStr i, .str ⟨[c]⟩) :: strChars (i + 1) cs

/-- The own enumerable entries of a value, modelling `Object.keys` /
`Object.entries` order: object fields in insertion order, array elements
under decimal index keys, string characters under decimal index keys,
nothing for primitives. -/
def entriesOf : Json → List (String × Json)
  | .obj fs => fs
  | .arr xs => enumFrom 0 xs
  | .str s => strChars 0 s.data
  | _ => []

/-- JS bracket property read `j[k]`, for the own enumerable properties
of `j` (`none` models `undefined`). -/
def getProp (j : Json) (k : String) : Option Json := lookupF (entriesOf j) k

/-- Kind tag of a change record: `N` added, `D` removed, `E` edited. -/
inductive ChangeKind where
  | N : ChangeKind
  | D : ChangeKind
  | E : ChangeKind
deriving DecidableEq

/-- One structural difference as produced by `deepCompare`. -/
structure Change where
  kind : ChangeKind
  path : String
  lhs : Option Json
  rhs : Option Json
deriving DecidableEq

/-- Path of an object key below `basePath`, per the source:
`basePath ? basePath + "." + key : key`. -/
def dotPath (basePath key : String) : String :=
  if basePath = "" then key else basePath ++ "." ++ key

/-- Path of an array index below `basePath`, per the source:
`basePath ? basePath + "[" + i + "]" : "[" + i + "]"`. -/
def idxPath (basePath : String) (i : Nat) : String :=
  if basePath = "" then "[" ++ natToStr i ++ "]"
  else basePath ++ "[" ++ natToStr i ++ "]"

theorem lookupF_mem {β : Type} {es : List (String × β)} {k : String} {v : β}
    (h : lookupF es k = some v) : (k, v) ∈ es := by
  induction es with
  | nil => simp [lookupF] at h
  | cons p fs ih =>
    obtain ⟨k', v'⟩ := p
    by_cases hk : k' = k
    · subst hk
      rw [lookupF, if_pos rfl] at h
      cases h
      exact List.mem_cons_self _ _
    · rw [lookupF, if_neg hk] at h
      exact List.mem_cons_of_mem _ (ih h)

theorem mem_enumFrom_val {xs : List Json} {i : Nat} {k : String} {v : Json}
    (h : (k, v) ∈ enumFrom i xs) : v ∈ xs := by
  induction xs generalizing i with
  | nil => simp [enumFrom] at h
  | cons x xs ih =>
    rw [enumFrom] at h
    rcases List.mem_cons.mp h with h | h
    · cases h
      exact List.mem_cons_self _ _
    · exact List.mem_cons_of_mem _ (ih h)

theorem mem_strChars_val {cs : List Char} {i : Nat} {k : String} {v : Json}
    (h : (k, v) ∈ strChars i cs) : ∃ c, v = .str ⟨[c]⟩ := by
  induction cs generalizing i with
  | nil => simp [strChars] at h
  | cons c cs ih =>
    rw [strChars] at h
    rcases List.mem_cons.mp h with h | h
    · cases h
      exact ⟨c, rfl⟩
    · exact ih h

theorem sizeOf_val_lt_obj {fs : List (String × Json)} {k : String} {v : Json}
    (h : (k, v) ∈ fs) : sizeOf v < sizeOf (Json.obj fs) := by
  have h1 : sizeOf (k, v) < sizeOf fs := List.sizeOf_lt_of_mem h
  have h2 : sizeOf v < sizeOf (k, v) := by simp
  simp only [Json.obj.sizeOf_spec]
  omega

theorem sizeOf_val_lt_arr {xs : List Json} {v : Json}
    (h : v ∈ xs) : sizeOf v < sizeOf (Json.arr xs) := by
  have h1 : sizeOf v < sizeOf xs := List.sizeOf_lt_of_mem h
  simp only [Json.arr.sizeOf_spec]
  omega

/-- A property value that is itself a non-null object-typed value is
strictly smaller than its parent container. -/
theorem sizeOf_getProp_lt {a v : Json} {k : String}
    (h : getProp a k = some v) (ht : jsTypeof v = "object")
    (hn : isNull v = false) : sizeOf v < sizeOf a := by
  have hmem := lookupF_mem h
  cases a with
  | null => simp [entriesOf] at hmem
  | bool b => simp [entriesOf] at hmem
  | num n => simp [entriesOf] at hmem
  | str s =>
    obtain ⟨c, rfl⟩ := mem_strChars_val hmem
    simp [jsTypeof] at ht
  | arr xs => exact sizeOf_val_lt_arr (mem_enumFrom_val hmem)
  | obj fs => exact sizeOf_val_lt_obj hmem

theorem length_le_sizeOf_fields : ∀ (l : List (String × Json)), l.length ≤ sizeOf l
  | [] => by simp
  | p :: fs => by
    have := length_le_sizeOf_fields fs
    have hp : 1 ≤ sizeOf p := by
      obtain ⟨k, v⟩ := p
      simp
      omega
    simp only [List.length_cons, List.cons.sizeOf_spec]
    omega

theorem length_enumFrom : ∀ (i : Nat) (xs : List Json),
    (enumFrom i xs).length = xs.length
  | _, [] => rfl
  | i, x :: xs => by
    rw [enumFrom, List.length_cons, List.length_cons, length_enumFrom]

theorem length_le_sizeOf_jlist : ∀ (l : List Json), l.length ≤ sizeOf l
  | [] => by simp
  | x :: xs => by
    have := length_le_sizeOf_jlist xs
    have hx : 1 ≤ sizeOf x := by cases x <;> simp
    simp only [List.length_cons, List.cons.sizeOf_spec]
    omega

theorem sizeOf_getD_lt (a : Json) (k : String)
    (ht : (jsTypeof ((getProp a k).getD .null) == "object") = true)
    (hn : (!(isNull ((getProp a k).getD .null))) = true) :
    sizeOf ((getProp a k).getD .null) < sizeOf a := by
  cases hv : getProp a k with
  | none =>
    rw [hv] at hn
    simp [isNull] at hn
  | some w =>
    rw [hv] at ht hn
    simp only [Option.getD_some] at ht hn ⊢
    exact sizeOf_getProp_lt hv (by simpa using ht) (by simpa using hn)

/-- For an object-typed non-null value, the number of enumerable entries
is strictly below the value's size. -/
theorem length_entriesOf_lt {a : Json} (ht : jsTypeof a = "object")
    (hn : isNull a = false) : (entriesOf a).length < sizeOf a := by
  cases a with
  | null => simp [isNull] at hn
  | bool b => simp [jsTypeof] at ht
  | num n => simp [jsTypeof] at ht
  | str s => simp [jsTypeof] at ht
  | arr xs =>
    have h1 := length_le_sizeOf_jlist xs
    simp only [entriesOf, length_enumFrom, Json.arr.sizeOf_spec]
    omega
  | obj fs =>
    have h1 := length_le_sizeOf_fields fs
    simp only [entriesOf, Json.obj.sizeOf_spec]
    omega

mutual

/-- The `deepCompare` function of src/index.js: recursive structural
comparison of two JSON values producing an ordered list of change
records.  The first guard compares JS `typeof` (under which null, arrays
and plain objects are all `"object"`); then two arrays are walked by
index; the object branch covers any remaining pair of non-null
object-typed values (including an array against a plain object),
enumerating removed keys, added keys and common keys in that order;
remaining pairs are compared as primitives with strict `!==`. -/
def deepCompare (a b : Json) (basePath : String) : List Change :=
  if jsTypeof a != jsTypeof b then
    [⟨.E, basePath, some a, some b⟩]
  else
    match a, b with
    | .arr xs, .arr ys => deepCompareArr xs ys basePath 0
    | a, b =>
      if (jsTypeof a == "object") && !(isNull a) && !(isNull b) then
        let es1 := entriesOf a
        let es2 := entriesOf b
        let removed := (es1.filter (fun p => !(hasKey es2 p.1))).map
          (fun p => ⟨.D, dotPath basePath p.1, some p.2, none⟩)
        let added := (es2.filter (fun p => !(hasKey es1 p.1))).map
          (fun p => ⟨.N, dotPath basePath p.1, none, some p.2⟩)
        let common := deepCompareCommon a b
          ((es1.map Prod.fst).filter (fun k => hasKey es2 k)) basePath
        removed ++ added ++ common
      else if !(beqJ a b) then
        [⟨.E, basePath, some a, some b⟩]
      else
        []
termination_by (sizeOf a + sizeOf b, 1, 0)
decreasing_by
  · apply Prod.Lex.left
    simp only [Json.arr.sizeOf_spec]
    omega
  · apply Prod.Lex.right
    apply Prod.Lex.left
    omega

/-- The index loop of `deepCompare` over two arrays: an index present
only on the right yields `N`, only on the left yields `D`, present on
both recurses. -/
def deepCompareArr (xs ys : List Json) (basePath : String) (i : Nat) : List Change :=
  match xs, ys with
  | [], [] => []
  | [], y :: ys =>
    ⟨.N, idxPath basePath i, none, some y⟩ :: deepCompareArr [] ys basePath (i + 1)
  | x :: xs, [] =>
    ⟨.D, idxPath basePath i, some x, none⟩ :: deepCompareArr xs [] basePath (i + 1)
  | x :: xs, y :: ys =>
    deepCompare x y (idxPath basePath i) ++ deepCompareArr xs ys basePath (i + 1)
termination_by (sizeOf xs + sizeOf ys, 0, 0)
decreasing_by
  all_goals apply Prod.Lex.left
  all_goals simp only [List.cons.sizeOf_spec]
  all_goals omega

/-- The common-key loop of `deepCompare`: for each key present on both
sides (in the left container's key order), recurse when both values are
non-null object-typed, otherwise emit an `E` record when the serialized
values differ. -/
def deepCompareCommon (a b : Json) (ks : List String) (basePath : String) : List Change :=
  match ks with
  | [] => []
  | k :: rest =>
    (if h : ((jsTypeof ((getProp a k).getD .null) == "object")
        && (jsTypeof ((getProp b k).getD .null) == "object")
        && !(isNull ((getProp a k).getD .null))
        && !(isNull ((getProp b k).getD .null))) = true then
      deepCompare ((getProp a k).getD .null) ((getProp b k).getD .null)
        (dotPath basePath k)
    else if !(beqJ ((getProp a k).getD .null) ((getProp b k).getD .null)) then
      [⟨.E, dotPath basePath k, some ((getProp a k).getD .null),
        some ((getProp b k).getD .null)⟩]
    else
      []) ++ deepCompareCommon a b rest basePath
termination_by (sizeOf a + sizeOf b, 0, ks.length)
decreasing_by
  · apply Prod.Lex.left
    simp only [Bool.and_eq_true] at h
    obtain ⟨⟨⟨ht1, ht2⟩, hn1⟩, hn2⟩ := h
    have h1 := sizeOf_getD_lt a k ht1 hn1
    have h2 := sizeOf_getD_lt b k ht2 hn2
    omega
  · apply Prod.Lex.right
    apply Prod.Lex.right
    simp

end


/-- Replace every dot by a slash, modelling `path.replace(/\./g, "/")`. -/
def replaceDots (s : String) : String :=
  ⟨s.data.map (fun c => if c = '.' then '/' else c)⟩

/-- RFC-6902-style operation kinds understood by applyPatch. -/
inductive POp where
  | add : POp
  | remove : POp
  | replace : POp
deriving DecidableEq

/-- One patch operation as produced by generatePatch; `value` is absent
for removals. -/
structure Patch where
  op : POp
  path : String
  value : Option Json
deriving DecidableEq

/-- The `generatePatch` function of src/index.js: a one-to-one,
order-preserving translation of change records into patch operations;
the pointer is the record path with every dot replaced by a slash and a
slash prepended (empty for an empty path). -/
def generatePatch (diffs : List Change) : List Patch :=
  diffs.map (fun c =>
    let patchPath := if c.path ≠ "" then "/" ++ replaceDots c.path else ""
    match c.kind with
    | .N => ⟨.add, patchPath, c.rhs⟩
    | .D => ⟨.remove, patchPath, none⟩
    | .E => ⟨.replace, patchPath, c.rhs⟩)

/-- Split a character list at every occurrence of `c`: first chunk plus
the remaining chunks. -/
def splitAux (c : Char) : List Char → List Char × List (List Char)
  | [] => ([], [])
  | ch :: rest =>
    let r := splitAux c rest
    if ch = c then ([], r.1 :: r.2) else (ch :: r.1, r.2)

/-- JS `String.prototype.split` with a single-character separator. -/
def jsSplit (c : Char) (s : String) : List String :=
  let r := splitAux c s.data
  (r.1 :: r.2).map (fun l => (⟨l⟩ : String))

/-- Pointer segments: `patch.path.split("/").filter(p => p)`. -/
def pointerParts (path : String) : List String :=
  (jsSplit '/' path).filter (fun s => s ≠ "")

/-- Whether `c` is JS whitespace relevant to parseInt. -/
def isWs (c : Char) : Bool := c = ' ' || c = '\t' || c = '\n' || c = '\r'

/-- The value of the leading digit run of `l`, if any. -/
def digitsPre (l : List Char) : Option Nat :=
  let ds := l.takeWhile (fun c => c.isDigit)
  if ds.isEmpty then none else some (valOf ds)

/-- JS `parseInt` in base 10: skip whitespace, optional sign, then the
leading digits; `none` models NaN. -/
def parseIntJs (s : String) : Option Int :=
  match s.data.dropWhile isWs with
  | '-' :: rest => (digitsPre rest).map (fun n => -(n : Int))
  | '+' :: rest => (digitsPre rest).map (fun n => (n : Int))
  | l => (digitsPre l).map (fun n => (n : Int))

/-- The regex test `^\d+$`. -/
def allDigits (s : String) : Bool := s != "" && s.data.all (fun c => c.isDigit)

/-- A canonical array-index string: digits with no leading zero (except
"0" itself), as used by indexed property access on strings. -/
def canonIdx (s : String) : Option Nat :=
  if allDigits s && (s == "0" || s.data.head? != some ('0' : Char)) then
    some (valOf s.data)
  else none

/-- JS array element write `xs[i] = v`: overwrite in range, extend with
holes (null in the JSON image) past the end. -/
def setIdx (xs : List Json) (i : Nat) (v : Json) : List Json :=
  if i < xs.length then xs.set i v
  else xs ++ List.replicate (i - xs.length) .null ++ [v]

/-- Normalized `splice` start: NaN becomes 0, a negative index counts
from the end clamped at 0, and the result is clamped at `len`. -/
def spliceStart (i : Option Int) (len : Nat) : Nat :=
  match i with
  | none => 0
  | some n => if n < 0 then len - min len (-n).toNat else min n.toNat len

/-- `xs.splice(start, 0, v)`: insert `v` at the normalized start. -/
def spliceInsert (xs : List Json) (i : Option Int) (v : Json) : List Json :=
  let s := spliceStart i xs.length
  xs.take s ++ [v] ++ xs.drop s

/-- `xs.splice(start, 1)`: delete one element at the normalized start
(no element past the end). -/
def spliceRemove (xs : List Json) (i : Option Int) : List Json :=
  let s := spliceStart i xs.length
  xs.take s ++ xs.drop (s + 1)

/-- Property read on a primitive string: a canonical index below the
length yields that character, `"length"` yields the length, anything
else is undefined. -/
def strProp (s : String) (k : String) : Option Json :=
  if k = "length" then some (.num s.data.length)
  else
    match canonIdx k with
    | some i => (s.data.get? i).map (fun c => .str ⟨[c]⟩)
    | none => none

/-- The final `switch (patch.op)` of applyPatch, at cursor value `c`
with last pointer segment `lastPart`; `none` models a TypeError.  An
absent `value` is JS `undefined`: assigned to an object key it erases
the key from the JSON image, inserted into an array it appears as null.
A `replace` with a NaN or negative index writes an expando property that
is invisible in the JSON image.  Writes on non-null primitives are
silently discarded in sloppy mode; any access on null throws. -/
def finalOp (c : Json) (lastPart : String) (op : POp) (v : Option Json) : Option Json :=
  match op with
  | .add =>
    match c with
    | .arr xs => some (.arr (spliceInsert xs (parseIntJs lastPart) (v.getD .null)))
    | .obj fs =>
      match v with
      | some w => some (.obj (setKey fs lastPart w))
      | none => some (.obj (eraseKey fs lastPart))
    | .null => none
    | _ => some c
  | .remove =>
    match c with
    | .arr xs => some (.arr (spliceRemove xs (parseIntJs lastPart)))
    | .obj fs => some (.obj (eraseKey fs lastPart))
    | .null => none
    | _ => some c
  | .replace =>
    match c with
    | .arr xs =>
      match parseIntJs lastPart with
      | some n =>
        if n < 0 then some c
        else some (.arr (setIdx xs n.toNat (v.getD .null)))
      | none => some c
    | .obj fs =>
      match v with
      | some w => some (.obj (setKey fs lastPart w))
      | none => some (.obj (eraseKey fs lastPart))
    | .null => none
    | _ => some c

/-- One patch operation applied at cursor value `c` with the remaining
pointer segments, modelling the walk loop plus final switch of
applyPatch.  With no segment left the last segment is the literal string
"undefined" (JS reads `pathParts[-1]`).  At an intermediate segment: a
digits segment on an array indexes it, replacing a falsy or missing
element by a fresh empty object (extending the array when needed);
`"length"` on a non-empty array walks into its length (a number, so any
deeper step throws) and on an empty array throws while overwriting the
length; any other segment on an array writes an invisible expando and
the rest of the walk cannot affect the JSON image or throw.  On an
object the property is read, with falsy or missing values replaced by a
fresh empty object, and the walk descends.  On a string the walk
descends into the read character or length without any way to write
back.  On null the read throws; on a number or boolean the cursor
becomes undefined and the following access throws. -/
def applyOne : Json → List String → POp → Option Json → Option Json
  | c, [], op, v => finalOp c "undefined" op v
  | c, [last], op, v => finalOp c last op v
  | c, part :: p2 :: rest, op, v =>
    match c with
    | .arr xs =>
      if allDigits part then
        let i := valOf part.data
        match xs.get? i with
        | some e =>
          if truthy e then
            (applyOne e (p2 :: rest) op v).map (fun r => .arr (xs.set i r))
          else
            (applyOne (.obj []) (p2 :: rest) op v).map (fun r => .arr (xs.set i r))
        | none =>
          (applyOne (.obj []) (p2 :: rest) op v).map (fun r => .arr (setIdx xs i r))
      else if part = "length" then
        if xs.length = 0 then none
        else (applyOne (.num xs.length) (p2 :: rest) op v).map (fun _ => .arr xs)
      else
        some (.arr xs)
    | .obj fs =>
      match lookupF fs part with
      | some e =>
        if truthy e then
          (applyOne e (p2 :: rest) op v).map (fun r => .obj (setKey fs part r))
        else
          (applyOne (.obj []) (p2 :: rest) op v).map (fun r => .obj (setKey fs part r))
      | none => (applyOne (.obj []) (p2 :: rest) op v).map (fun r => .obj (setKey fs part r))
    | .str s =>
      match strProp s part with
      | some e => (applyOne e (p2 :: rest) op v).map (fun _ => .str s)
      | none => none
    | .null => none
    | .num _ => none
    | .bool _ => none

/-- The `applyPatch` function of src/index.js: start from a deep copy of
the input (the model is pure) and apply each operation in order; a
thrown TypeError aborts the whole application. -/
def applyPatch (obj : Json) (patches : List Patch) : Option Json :=
  patches.foldl
    (fun acc p => acc.bind (fun t => applyOne t (pointerParts p.path) p.op p.value))
    (some obj)

theorem sizeOf_lookupF_lt {gs : List (String × Json)} {k : String} {w : Json}
    (h : lookupF gs k = some w) : sizeOf w < sizeOf gs := by
  have hmem := lookupF_mem h
  have h1 : sizeOf (k, w) < sizeOf gs := List.sizeOf_lt_of_mem hmem
  have h2 : sizeOf w < sizeOf (k, w) := by simp
  omega

/-- No duplicate keys in a field list. -/
def nodupKeys {β : Type} : List (String × β) → Bool
  | [] => true
  | (k, _) :: fs => !(hasKey fs k) && nodupKeys fs

mutual

/-- Order-insensitive structural equality of JSON values: objects are
compared as finite maps by first-occurrence lookup, arrays pointwise.
Two well-formed objects differing only in key order are equal in this
sense (deepCompare reports no differences for them), while serialized
comparison is order-sensitive; every theorem below states which notion
it uses. -/
def jsonEquiv : Json → Json → Bool
  | .obj fs, .obj gs => subEquiv fs gs && gs.all (fun p => hasKey fs p.1)
  | .arr xs, .arr ys => arrEquiv xs ys
  | a, b => beqJ a b
termination_by a b => sizeOf a + sizeOf b
decreasing_by
  · simp only [Json.obj.sizeOf_spec]
    omega
  · simp only [Json.arr.sizeOf_spec]
    omega

/-- Every field of `fs` is matched by an equivalent value in `gs`. -/
def subEquiv : List (String × Json) → List (String × Json) → Bool
  | [], _ => true
  | (k, v) :: fs, gs =>
    (match h : lookupF gs k with
     | some w => jsonEquiv v w
     | none => false) && subEquiv fs gs
termination_by fs gs => sizeOf fs + sizeOf gs
decreasing_by
  · have h1 := sizeOf_lookupF_lt h
    simp only [List.cons.sizeOf_spec, Prod.mk.sizeOf_spec]
    omega
  · simp only [List.cons.sizeOf_spec]
    omega

/-- Pointwise equivalence of arrays. -/
def arrEquiv : List Json → List Json → Bool
  | [], [] => true
  | x :: xs, y :: ys => jsonEquiv x y && arrEquiv xs ys
  | _, _ => false
termination_by xs ys => sizeOf xs + sizeOf ys
decreasing_by
  · simp only [List.cons.sizeOf_spec]
    omega
  · simp only [List.cons.sizeOf_spec]
    omega

end

mutual

/-- Well-formedness of a JSON value as a model of a real JS value:
object key lists never contain duplicates. -/
def wfJson : Json → Bool
  | .arr xs => wfArr xs
  | .obj fs => nodupKeys fs && wfFields fs
  | _ => true

/-- Well-formedness of every element of an array. -/
def wfArr : List Json → Bool
  | [] => true
  | x :: xs => wfJson x && wfArr xs

/-- Well-formedness of every field value of an object. -/
def wfFields : List (String × Json) → Bool
  | [] => true
  | (_, v) :: fs => wfJson v && wfFields fs

end


/-- The type tag computed by mergeJson:
`Array.isArray(v) ? "array" : typeof v`. -/
def mergeType : Json → String
  | .arr _ => "array"
  | v => jsTypeof v

theorem jsTypeof_of_mergeType {v : Json} (h : mergeType v = "object") :
    jsTypeof v = "object" := by
  cases v <;> simp_all [mergeType, jsTypeof]

/-- The mergeArrays function of the merge module: start from `arr1` and
append each item of `arr2` not already present.  Object and array items
are deduplicated by serialized comparison; primitives by
`includes` — both checks coincide with structural equality against the
elements, since `includes` on a primitive item is value equality and a
primitive never equals a container. -/
def mergeArrays (arr1 arr2 : List Json) : List Json :=
  arr2.foldl
    (fun res item =>
      if (jsTypeof item == "object") && !(isNull item) then
        if res.any (fun i => beqJ i item) then res else res ++ [item]
      else
        if res.any (fun i => beqJ i item) then res else res ++ [item])
    arr1

/-- JS property assignment `t[k] = v` as visible in the JSON image:
objects update or append the key; arrays accept a canonical index
(extending with holes, null in the image); any other write — an expando
property on an array or a write on a primitive — leaves the image
unchanged.  (An assignment to an array's `length` property is not
modelled; no theorem below depends on one.) -/
def setPropJs (t : Json) (k : String) (v : Json) : Json :=
  match t with
  | .obj fs => .obj (setKey fs k v)
  | .arr xs =>
    match canonIdx k with
    | some i => .arr (setIdx xs i v)
    | none => .arr xs
  | other => other

/-- Options of mergeJson; the source destructures
`{ strategy = "overwrite", arrayMerge = "overwrite" }`. -/
structure MergeOpts where
  strategy : String
  arrayMerge : String
deriving DecidableEq

mutual

/-- The inner `merge(t, s)` of mergeJson, returning the final value of
the mutated target; `none` models a thrown TypeError (`Object.keys` on
a null source, or reading a property of a null target). -/
def mergeInto (opts : MergeOpts) (t s : Json) : Option Json :=
  if isNull s then none
  else mergeKeys opts t s ((entriesOf s).map Prod.fst)
termination_by (sizeOf s, 2, 0)
decreasing_by
  apply Prod.Lex.right
  apply Prod.Lex.left
  omega

/-- The `for (const key of Object.keys(s))` loop of merge. -/
def mergeKeys (opts : MergeOpts) (t s : Json) : List String → Option Json
  | [] => some t
  | k :: rest =>
    match mergeKey1 opts t s k with
    | none => none
    | some t2 => mergeKeys opts t2 s rest
termination_by ks => (sizeOf s, 1, ks.length)
decreasing_by
  · apply Prod.Lex.right
    apply Prod.Lex.left
    omega
  · apply Prod.Lex.right
    apply Prod.Lex.right
    simp

/-- One iteration of the merge loop for key `k`: add a missing key, then
dispatch on the type pair — kind mismatch by strategy, arrays by the
array policy (regardless of strategy), non-null objects recurse, and
primitives by strategy.  An unrecognized array policy falls through the
switch without writing. -/
def mergeKey1 (opts : MergeOpts) (t s : Json) (k : String) : Option Json :=
  match t with
  | .null => none
  | _ =>
    let sv := (getProp s k).getD .null
    match getProp t k with
    | none => some (setPropJs t k sv)
    | some tv =>
      if mergeType sv != mergeType tv then
        if opts.strategy == "preserve" then some t
        else some (setPropJs t k sv)
      else if mergeType sv = "array" then
        match tv, sv with
        | .arr txs, .arr sxs =>
          if opts.arrayMerge == "overwrite" then some (setPropJs t k (.arr sxs))
          else if opts.arrayMerge == "concatenate" then
            some (setPropJs t k (.arr (txs ++ sxs)))
          else if opts.arrayMerge == "merge" then
            some (setPropJs t k (.arr (mergeArrays txs sxs)))
          else some t
        | _, _ => some t
      else if h2 : (mergeType sv == "object") && !(isNull sv) then
        match mergeInto opts tv sv with
        | none => none
        | some r => some (setPropJs t k r)
      else
        if opts.strategy == "preserve" then some t
        else some (setPropJs t k sv)
termination_by (sizeOf s, 0, 0)
decreasing_by
  apply Prod.Lex.left
  simp only [Bool.and_eq_true] at h2
  have ht := jsTypeof_of_mergeType (by simpa using h2.1)
  have hlt := sizeOf_getD_lt s k (by simpa using ht) h2.2
  omega

end

/-- mergeJson from the merge module: deep-copy the target (the model is
pure) and merge the source into it under the given options. -/
def mergeJson (target source : Json) (opts : MergeOpts) : Option Json :=
  mergeInto opts target source

mutual

/-- The inner `flatten(current, path)` of flattenObject, threading the
mutable result object: non-objects (including null and arrays) are
recorded as leaves at the accumulated path, objects are descended. -/
def flattenInto (sep : String) (res : List (String × Json)) (j : Json)
    (path : String) : List (String × Json) :=
  match j with
  | .obj fs => flattenFields sep res fs path
  | leaf => setKey res path leaf
termination_by sizeOf j
decreasing_by
  simp only [Json.obj.sizeOf_spec]
  omega

/-- The entries loop of flatten. -/
def flattenFields (sep : String) (res : List (String × Json))
    (fs : List (String × Json)) (path : String) : List (String × Json) :=
  match fs with
  | [] => res
  | (k, v) :: rest =>
    flattenFields sep
      (flattenInto sep res v (if path = "" then k else path ++ sep ++ k)) rest path
termination_by sizeOf fs
decreasing_by
  · simp only [List.cons.sizeOf_spec, Prod.mk.sizeOf_spec]
    omega
  · simp only [List.cons.sizeOf_spec]
    omega

end

/-- flattenObject from the merge module (the separator defaults
to "."). -/
def flattenObject (j : Json) (sep : String) : List (String × Json) :=
  flattenInto sep [] j ""

/-- The shared nested-set walk of unflattenObject and setValue: follow
`keys`, replacing a missing, falsy or non-object intermediate by a fresh
empty object where the runtime allows the write, and assign the value at
the last key.  `none` models the TypeError thrown when the walk
dereferences undefined (after a discarded write on a number or boolean,
or a missing string property) or assigns through null; a non-index
property created on an array is an expando invisible to the JSON image,
inside which the rest of the walk can neither write anything visible nor
throw; walks into string characters likewise cannot write back. -/
def setPath : Json → List String → Json → Option Json
  | t, [], v =>
    match t with
    | .null => none
    | t => some (setPropJs t "undefined" v)
  | t, [k], v =>
    match t with
    | .null => none
    | t => some (setPropJs t k v)
  | t, k :: k2 :: rest, v =>
    match t with
    | .null => none
    | .obj fs =>
      match lookupF fs k with
      | some c =>
        if (jsTypeof c == "object") && truthy c then
          (setPath c (k2 :: rest) v).map (fun r => .obj (setKey fs k r))
        else
          (setPath (.obj []) (k2 :: rest) v).map (fun r => .obj (setKey fs k r))
      | none => (setPath (.obj []) (k2 :: rest) v).map (fun r => .obj (setKey fs k r))
    | .arr xs =>
      match canonIdx k with
      | some i =>
        match xs.get? i with
        | some c =>
          if (jsTypeof c == "object") && truthy c then
            (setPath c (k2 :: rest) v).map (fun r => .arr (xs.set i r))
          else
            (setPath (.obj []) (k2 :: rest) v).map (fun r => .arr (xs.set i r))
        | none => (setPath (.obj []) (k2 :: rest) v).map (fun r => .arr (setIdx xs i r))
      | none =>
        if k = "length" then none
        else some (.arr xs)
    | .str s =>
      match strProp s k with
      | some e => (setPath e (k2 :: rest) v).map (fun _ => .str s)
      | none => none
    | .num _ => none
    | .bool _ => none

/-- The entry loop of unflattenObject from an arbitrary start value. -/
def unflattenFold (t : Json) (flat : List (String × Json)) (sep : Char) : Option Json :=
  flat.foldl (fun acc pv => acc.bind (fun u => setPath u (jsSplit sep pv.1) pv.2))
    (some t)

/-- unflattenObject from the merge module: fold the flat entries into a
fresh object, splitting each path on the (single-character) separator. -/
def unflattenObject (flat : List (String × Json)) (sep : Char) : Option Json :=
  unflattenFold (.obj []) flat sep

/-- setValue from the merge module: the same walk with a hard-coded dot
separator. -/
def setValue (t : Json) (path : String) (v : Json) : Option Json :=
  setPath t (jsSplit '.' path) v

/-- One entry of a change map produced by compareChanges: the previous
value (absent when the address was missing on the from side) and the new
value. -/
structure ChangeEntry where
  fromVal : Option Json
  value : Json
deriving DecidableEq

/-- Strict `===` between a flattened leaf of the source side (undefined
when absent) and one of the target side.  Primitives compare by value;
an object-typed non-null leaf (an array, in practice) is compared by
reference, and the two flattenings come from structurally independent
trees (post-`JSON.parse`), so such a comparison is never true. -/
def strictEqLeaf : Option Json → Json → Bool
  | none, _ => false
  | some w, v =>
    match w, v with
    | .arr _, _ => false
    | _, .arr _ => false
    | .obj _, _ => false
    | _, .obj _ => false
    | w, v => beqJ w v

/-- One iteration of the compareChanges loop: record the entry when the
source flattening differs at that path. -/
def ccStep (flatFrom : List (String × Json)) (changes : List (String × ChangeEntry))
    (pv : String × Json) : List (String × ChangeEntry) :=
  if !(strictEqLeaf (lookupF flatFrom pv.1) pv.2) then
    setKey changes pv.1 ⟨lookupF flatFrom pv.1, pv.2⟩
  else changes

/-- compareChanges from the merge module: flatten both sides and record,
for every path of the target flattening whose value is not strictly
equal to the source flattening at that path, the old and new values. -/
def compareChanges (a b : Json) : List (String × ChangeEntry) :=
  (flattenObject b ".").foldl (ccStep (flattenObject a ".")) []

/-- findConflicts from the merge module: the local-change paths whose
remote entry exists and has a differing (serialized) new value. -/
def findConflicts (lc rc : List (String × ChangeEntry)) : List String :=
  (lc.map Prod.fst).filter (fun p =>
    match lookupF rc p, lookupF lc p with
    | some re, some le => !(beqJ le.value re.value)
    | _, _ => false)

/-- One conflict as reported by threeWayMerge. -/
structure Conflict where
  path : String
  localVal : Option Json
  remoteVal : Option Json
deriving DecidableEq

/-- The result of threeWayMerge. -/
structure MergeResult where
  merged : Json
  conflicts : List Conflict
deriving DecidableEq

/-- Application of the non-conflicting entries of a change map via
setValue, in change order. -/
def applyChangeList (t : Json) (cs : List (String × ChangeEntry))
    (conflicts : List String) : Option Json :=
  cs.foldl
    (fun acc pc =>
      if conflicts.contains pc.1 then acc
      else acc.bind (fun u => setValue u pc.1 pc.2.value))
    (some t)

/-- threeWayMerge from the merge module: compute both change sets
against the base, collect conflicting paths, apply the non-conflicting
local then remote changes onto a copy of the base, and report every
conflict with both sides' new values. -/
def threeWayMerge (base localJ remoteJ : Json) : Option MergeResult :=
  let lc := compareChanges base localJ
  let rc := compareChanges base remoteJ
  let conflicts := findConflicts lc rc
  (applyChangeList base lc conflicts).bind (fun m1 =>
    (applyChangeList m1 rc conflicts).map (fun m2 =>
      ⟨m2, conflicts.map (fun p =>
        ⟨p, (lookupF lc p).map ChangeEntry.value,
          (lookupF rc p).map ChangeEntry.value⟩)⟩))


/-- Sufficient condition for one applyPatch operation to run without a
TypeError: at every intermediate segment the cursor is a plain object
(with the property either absent, falsy — both replaced by a fresh empty
object, creating the missing parent chain — or a truthy value to walk
into), and the final cursor is not null. -/
def goodWalk : Json → List String → Bool
  | c, [] => !(isNull c)
  | c, [_] => !(isNull c)
  | c, k :: k2 :: rest =>
    match c with
    | .obj fs =>
      match lookupF fs k with
      | some v =>
        if truthy v then goodWalk v (k2 :: rest) else goodWalk (.obj []) (k2 :: rest)
      | none => goodWalk (.obj []) (k2 :: rest)
    | _ => false

/-- Modelled from the spec's ordering contract for one common key of two
objects: recurse when both values are non-null object-typed, otherwise
an `Edited` record exactly when the values differ. -/
def specCommonRecs (fs gs : List (String × Json)) (bp k : String) : List Change :=
  match lookupF fs k, lookupF gs k with
  | some v1, some v2 =>
    if (jsTypeof v1 == "object") && (jsTypeof v2 == "object")
        && !(isNull v1) && !(isNull v2) then
      deepCompare v1 v2 (dotPath bp k)
    else if !(beqJ v1 v2) then
      [⟨.E, dotPath bp k, some v1, some v2⟩]
    else
      []
  | _, _ => []

/-- Dotted join of a key chain: the address string of a chain of object
keys. -/
def pathJoin : List String → String
  | [] => ""
  | [k] => k
  | k :: ks => k ++ "." ++ pathJoin ks

/-- A nonempty key without the flatten separator. -/
def dotFreeKey (k : String) : Bool :=
  k != "" && k.data.all (fun c => c != '.')

/-- A nonempty key without dots and without slashes, so that the
address-to-pointer translation of generatePatch is injective on chains
of such keys. -/
def niceKey (k : String) : Bool :=
  dotFreeKey k && k.data.all (fun c => c != '/')

mutual

/-- Trees on which the diff-then-patch round trip is stated: arbitrary
leaves, containers are objects only (no arrays), keys are nonempty
without dots or slashes, and no object has duplicate keys. -/
def niceJson : Json → Bool
  | .obj fs => nodupKeys fs && niceFields fs
  | .arr _ => false
  | _ => true

/-- The field list form of `niceJson`. -/
def niceFields : List (String × Json) → Bool
  | [] => true
  | (k, v) :: fs => niceKey k && niceJson v && niceFields fs

end

mutual

/-- Trees on which the flatten/unflatten round trip is stated: no
arrays, keys nonempty without the separator and without duplicates, and
no empty object below the root (flatten erases those). -/
def flatJson : Json → Bool
  | .obj fs => nodupKeys fs && flatFields fs
  | .arr _ => false
  | _ => true

/-- The field list form of `flatJson`: every value is itself flat-nice
and a nested object is nonempty. -/
def flatFields : List (String × Json) → Bool
  | [] => true
  | (k, v) :: fs =>
    dotFreeKey k && flatJson v &&
      (match v with
       | .obj gs => !gs.isEmpty
       | _ => true) && flatFields fs

end


/-- Join a key chain with a separator string. -/
def joinSep (sep : String) : List String → String
  | [] => ""
  | [k] => k
  | k :: k2 :: ks => k ++ sep ++ joinSep sep (k2 :: ks)

mutual

/-- The leaf chains of a value: the key chain and value of every leaf
that flatten records (objects descend, everything else is a leaf). -/
def leafChains : Json → List (List String × Json)
  | .obj fs => leafChainsF fs
  | leaf => [([], leaf)]
termination_by j => sizeOf j
decreasing_by
  simp only [Json.obj.sizeOf_spec]
  omega

/-- The leaf chains of an object's field list, each prefixed with its
field key, in field order. -/
def leafChainsF : List (String × Json) → List (List String × Json)
  | [] => []
  | (k, v) :: fs =>
    (leafChains v).map (fun p => (k :: p.1, p.2)) ++ leafChainsF fs
termination_by fs => sizeOf fs
decreasing_by
  · simp only [List.cons.sizeOf_spec, Prod.mk.sizeOf_spec]
    omega
  · simp only [List.cons.sizeOf_spec]
    omega

end

/-- Fold of setPath over key-chain entries from a start value. -/
def chainFold (t : Json) (chains : List (List String × Json)) : Option Json :=
  chains.foldl (fun acc p => acc.bind (fun u => setPath u p.1 p.2)) (some t)

/-- The path accumulator of flatten after descending a chain of keys
starting from `path`: the JS expression `path ? path + sep + key : key`
iterated over the chain. -/
def extendPath (sep path : String) : List String → String
  | [] => path
  | k :: ks => extendPath sep (if path = "" then k else path ++ sep ++ k) ks

/-- Re-rooting of a change record produced against base path "" onto
base path `bp`. -/
def rebase (bp : String) (c : Change) : Change :=
  ⟨c.kind, dotPath bp c.path, c.lhs, c.rhs⟩

/-- Re-rooting of a patch operation one object level deeper: the pointer
gains a leading `/k` segment. -/
def ptrPrefixed (k : String) (p : Patch) : Patch :=
  ⟨p.op, "/" ++ k ++ p.path, p.value⟩

/-- The per-record translation performed by generatePatch. -/
def patchOf (c : Change) : Patch :=
  let patchPath := if c.path ≠ "" then "/" ++ replaceDots c.path else ""
  match c.kind with
  | .N => ⟨.add, patchPath, c.rhs⟩
  | .D => ⟨.remove, patchPath, none⟩
  | .E => ⟨.replace, patchPath, c.rhs⟩

theorem lookupF_setKey_self {β : Type} (l : List (String × β)) (k : String) (v : β) :
    lookupF (setKey l k v) k = some v := by
  induction l with
  | nil => simp [setKey, lookupF]
  | cons p fs ih =>
    obtain ⟨k', w⟩ := p
    by_cases hk : k' = k
    · subst hk
      simp [setKey, lookupF]
    · simp [setKey, lookupF, hk, ih]

theorem lookupF_setKey_ne {β : Type} (l : List (String × β)) (k p : String) (v : β)
    (h : p ≠ k) : lookupF (setKey l k v) p = lookupF l p := by
  have hkp : ¬ k = p := fun hh => h hh.symm
  induction l with
  | nil => simp [setKey, lookupF, hkp]
  | cons q fs ih =>
    obtain ⟨k', w⟩ := q
    by_cases hk : k' = k
    · subst hk
      simp [setKey, lookupF, hkp]
    · simp [setKey, lookupF, hk, ih]

theorem mem_map_fst_isSome {β : Type} {es : List (String × β)} {k : String}
    (h : k ∈ es.map Prod.fst) : (lookupF es k).isSome := by
  induction es with
  | nil => simp at h
  | cons p fs ih =>
    obtain ⟨k', w⟩ := p
    by_cases hk : k' = k
    · subst hk
      simp [lookupF]
    · simp [lookupF, hk]
      rcases List.mem_map.mp h with ⟨q, hq, hfst⟩
      rcases List.mem_cons.mp hq with rfl | hq2
      · exact absurd hfst hk
      · exact ih (List.mem_map.mpr ⟨q, hq2, hfst⟩)

theorem goodWalk_objEmpty : ∀ (parts : List String), goodWalk (.obj []) parts = true
  | [] => by simp [goodWalk, isNull]
  | [_] => by simp [goodWalk, isNull]
  | _ :: _ :: _ => by
    rw [goodWalk]
    simp only [lookupF]
    exact goodWalk_objEmpty _

theorem finalOp_isSome (t : Json) (last : String) (op : POp) (v : Option Json)
    (h : isNull t = false) : (finalOp t last op v).isSome := by
  cases t with
  | null => simp [isNull] at h
  | bool b => cases op <;> simp [finalOp]
  | num n => cases op <;> simp [finalOp]
  | str s => cases op <;> simp [finalOp]
  | arr xs =>
    cases op with
    | add => simp [finalOp]
    | remove => simp [finalOp]
    | replace =>
      simp only [finalOp]
      cases parseIntJs last with
      | none => simp
      | some n =>
        by_cases hn : n < 0
        · simp [hn]
        · simp [hn]
  | obj fs =>
    cases op with
    | add => cases v <;> simp [finalOp]
    | remove => simp [finalOp]
    | replace => cases v <;> simp [finalOp]

theorem applyOne_isSome : ∀ (parts : List String) (t : Json) (op : POp)
    (v : Option Json), goodWalk t parts = true → (applyOne t parts op v).isSome
  | [], t, op, v, h => by
    rw [goodWalk] at h
    rw [applyOne]
    exact finalOp_isSome t "undefined" op v (by simpa using h)
  | [k], t, op, v, h => by
    rw [goodWalk] at h
    rw [applyOne]
    exact finalOp_isSome t k op v (by simpa using h)
  | k :: k2 :: rest, t, op, v, h => by
    cases t with
    | obj fs =>
      cases hl : lookupF fs k with
      | some w =>
        simp only [goodWalk, hl] at h
        simp only [applyOne, hl]
        by_cases htr : truthy w = true
        · simp only [htr, if_true] at h ⊢
          have hrec := applyOne_isSome (k2 :: rest) w op v h
          cases hh : applyOne w (k2 :: rest) op v
          · rw [hh] at hrec
            simp at hrec
          · simp [hh]
        · simp only [htr, if_false] at h ⊢
          have hrec := applyOne_isSome (k2 :: rest) (.obj []) op v h
          cases hh : applyOne (.obj []) (k2 :: rest) op v
          · rw [hh] at hrec
            simp at hrec
          · simp [hh]
      | none =>
        simp only [goodWalk, hl] at h
        simp only [applyOne, hl]
        have hrec := applyOne_isSome (k2 :: rest) (.obj []) op v h
        cases hh : applyOne (.obj []) (k2 :: rest) op v
        · rw [hh] at hrec
          simp at hrec
        · simp [hh]
    | null => simp [goodWalk] at h
    | bool b => simp [goodWalk] at h
    | num n => simp [goodWalk] at h
    | str s => simp [goodWalk] at h
    | arr xs => simp [goodWalk] at h


/-- C6: for base `{x:1}`, local `{x:2}`, remote `{x:3}`, threeWayMerge
returns exactly one conflict, at path `x` with local value 2 and remote
value 3, and the merged tree keeps `x = 1` (the base value), the
conflicting path being excluded from application. -/
theorem threeWay_conflict_x :
    threeWayMerge (.obj [("x", .num 1)]) (.obj [("x", .num 2)]) (.obj [("x", .num 3)]) =
      some ⟨.obj [("x", .num 1)], [⟨"x", some (.num 2), some (.num 3)⟩]⟩ := by
  simp [threeWayMerge, compareChanges, ccStep, flattenObject, flattenInto, flattenFields,
    setKey, lookupF, strictEqLeaf, beqJ, findConflicts, applyChangeList, setValue, setPath,
    jsSplit, splitAux, dotPath]

/-- C2 counterexample: diffing the array `[1]` against the plain object
`{a:2}` does not produce a single `Edited` record at the current path;
both sides have JS typeof "object", so deepCompare recurses over their
key sets and emits a `Removed` record (index key "0") followed by an
`Added` record (key "a"). -/
theorem typeChange_not_single_edited :
    (deepCompare (.arr [.num 1]) (.obj [("a", .num 2)]) "").map Change.kind =
      [ChangeKind.D, ChangeKind.N] := by
  simp [deepCompare, deepCompareCommon, jsTypeof, entriesOf, enumFrom, hasKey, lookupF,
    natToStr, digitsOf, natToStrAux, dotPath, isNull, beqJ]

/-- C2 amended: when the JS `typeof` of the two sides differ (which
distinguishes scalar kinds from containers, but does not distinguish an
array from a plain object or from null), deepCompare emits exactly one
`Edited` record at the current path carrying both values and stops
recursing there. -/
theorem typeofMismatch_single_edited (a b : Json) (p : String)
    (h : jsTypeof a ≠ jsTypeof b) :
    deepCompare a b p = [⟨.E, p, some a, some b⟩] := by
  rw [deepCompare.eq_def]
  simp [h]

/-- Closed instance of `typeofMismatch_single_edited` at a number
against a string. -/
theorem typeofMismatch_single_edited_witness :
    jsTypeof (.num 1) ≠ jsTypeof (.str "x") ∧
      deepCompare (.num 1) (.str "x") "" = [⟨.E, "", some (.num 1), some (.str "x")⟩] :=
  ⟨by decide, typeofMismatch_single_edited (.num 1) (.str "x") "" (by decide)⟩

/-- C3 counterexample: the change record at address `a[2].b` compiles to
the patch pointer `/a[2]/b` — the bracketed index segment is kept
verbatim — and not to `/a/2/b` as the claim states. -/
theorem bracket_segment_not_converted :
    generatePatch [⟨.E, "a[2].b", some (.num 1), some (.num 2)⟩] =
      [⟨.replace, "/a[2]/b", some (.num 2)⟩] ∧ ("/a[2]/b" : String) ≠ "/a/2/b" :=
  ⟨by decide, by decide⟩

/-- C3 amended: every patch pointer is derived from the record's address
by replacing every dot with a slash and prepending a slash (an empty
address gives an empty pointer); bracketed array-index segments are NOT
rewritten into plain numeric segments but survive verbatim, so `a[2].b`
yields `/a[2]/b`. -/
theorem pointer_derivation :
    (∀ ds : List Change, (generatePatch ds).map Patch.path =
      ds.map (fun c => if c.path ≠ "" then "/" ++ replaceDots c.path else "")) ∧
    (generatePatch [⟨.E, "a[2].b", some (.num 1), some (.num 2)⟩]).map Patch.path =
      ["/a[2]/b"] := by
  constructor
  · intro ds
    simp only [generatePatch, List.map_map]
    apply List.map_congr_left
    intro c _
    obtain ⟨k, p, l, r⟩ := c
    cases k <;> rfl
  · decide

/-- C4 counterexample: applying a single add operation at `/a/b/c` to
the well-formed tree `{a:5}` throws (modelled as `none`): the walk keeps
the truthy non-container intermediate `5` instead of replacing it, the
discarded write leaves the cursor undefined, and the next access
throws. -/
theorem applyPatch_throws_on_scalar_parent :
    applyPatch (.obj [("a", .num 5)]) [⟨.add, "/a/b/c", some (.num 1)⟩] = none := by
  decide

/-- C4 amended: while walking all but the last pointer segment,
applyPatch creates an empty object at any missing or falsy intermediate
(building the missing parent chain), so an operation whose walk only
meets plain objects with absent, falsy, or truthy-object properties — in
particular any path whose parent chain does not exist at all — never
fails; but a truthy non-container intermediate is entered as-is and the
operation can throw (see the counterexample). -/
theorem applyPatch_goodWalk_isSome (t : Json) (p : Patch)
    (h : goodWalk t (pointerParts p.path) = true) :
    (applyPatch t [p]).isSome := by
  simp only [applyPatch, List.foldl_cons, List.foldl_nil, Option.bind_some]
  exact applyOne_isSome (pointerParts p.path) t p.op p.value h

/-- Closed instance of `applyPatch_goodWalk_isSome`: adding at `/a/b` on
the empty object succeeds, creating the parent chain. -/
theorem applyPatch_goodWalk_isSome_witness :
    goodWalk (.obj []) (pointerParts "/a/b") = true ∧
      (applyPatch (.obj []) [⟨.add, "/a/b", some (.num 1)⟩]).isSome :=
  ⟨by decide, applyPatch_goodWalk_isSome (.obj []) ⟨.add, "/a/b", some (.num 1)⟩ (by decide)⟩


theorem nodup_setKey {β : Type} (l : List (String × β)) (k : String) (v : β)
    (h : nodupKeys l = true) : nodupKeys (setKey l k v) = true := by
  induction l with
  | nil => simp [setKey, nodupKeys, hasKey, lookupF]
  | cons q fs ih =>
    obtain ⟨k', w⟩ := q
    simp only [nodupKeys, Bool.and_eq_true] at h
    by_cases hk : k' = k
    · subst hk
      simp only [setKey, if_pos rfl, nodupKeys, Bool.and_eq_true]
      exact h
    · simp only [setKey, if_neg hk, nodupKeys, Bool.and_eq_true]
      refine ⟨?_, ih h.2⟩
      have := lookupF_setKey_ne fs k k' v hk
      simp only [hasKey] at h ⊢
      rw [this]
      exact h.1

theorem flatten_nodup_aux (n : Nat) :
    (∀ (j : Json) (sep : String) (res : List (String × Json)) (path : String),
      sizeOf j ≤ n → nodupKeys res = true →
      nodupKeys (flattenInto sep res j path) = true) ∧
    (∀ (fs : List (String × Json)) (sep : String) (res : List (String × Json))
      (path : String), sizeOf fs ≤ n → nodupKeys res = true →
      nodupKeys (flattenFields sep res fs path) = true) := by
  induction n with
  | zero =>
    constructor
    · intro j sep res path hs
      exfalso
      cases j <;> simp at hs
    · intro fs sep res path hs
      exfalso
      cases fs <;> simp at hs
  | succ n ih =>
    obtain ⟨ihJ, ihF⟩ := ih
    constructor
    · intro j sep res path hs hres
      cases j with
      | obj fs =>
        rw [flattenInto.eq_def]
        exact ihF fs sep res path (by simp at hs; omega) hres
      | null => rw [flattenInto.eq_def]; exact nodup_setKey res path _ hres
      | bool b => rw [flattenInto.eq_def]; exact nodup_setKey res path _ hres
      | num m => rw [flattenInto.eq_def]; exact nodup_setKey res path _ hres
      | str s => rw [flattenInto.eq_def]; exact nodup_setKey res path _ hres
      | arr xs => rw [flattenInto.eq_def]; exact nodup_setKey res path _ hres
    · intro fs sep res path hs hres
      cases fs with
      | nil => rw [flattenFields]; exact hres
      | cons q rest =>
        obtain ⟨k, v⟩ := q
        rw [flattenFields]
        refine ihF rest sep _ path (by simp at hs; omega) ?_
        exact ihJ v sep res _ (by simp at hs; omega) hres

theorem flattenObject_nodup (j : Json) (sep : String) :
    nodupKeys (flattenObject j sep) = true :=
  (flatten_nodup_aux (sizeOf j)).1 j sep [] "" (Nat.le_refl _) rfl

theorem ccFold_lookup (flatFrom : List (String × Json)) :
    ∀ (es : List (String × Json)) (acc : List (String × ChangeEntry)) (p : String),
    nodupKeys es = true →
    lookupF (es.foldl (ccStep flatFrom) acc) p =
      (match lookupF es p with
       | some v =>
         if !(strictEqLeaf (lookupF flatFrom p) v) then
           some ⟨lookupF flatFrom p, v⟩
         else lookupF acc p
       | none => lookupF acc p) := by
  intro es
  induction es with
  | nil => intro acc p _; simp [lookupF]
  | cons q rest ih =>
    intro acc p hnd
    obtain ⟨k, v⟩ := q
    simp only [nodupKeys, Bool.and_eq_true] at hnd
    rw [List.foldl_cons, ih _ p hnd.2]
    by_cases hp : p = k
    · subst hp
      have hne : lookupF rest p = none := by
        simp only [hasKey, Bool.not_eq_true] at hnd
        cases hl : lookupF rest p
        · rfl
        · rw [hl] at hnd; simp at hnd
      have hr : lookupF ((p, v) :: rest) p = some v := by
        rw [lookupF, if_pos rfl]
      simp only [hne, hr]
      rw [ccStep]
      by_cases hc : (!(strictEqLeaf (lookupF flatFrom p) v)) = true
      · rw [if_pos hc, if_pos hc, lookupF_setKey_self]
      · rw [if_neg hc, if_neg hc]
    · have hcons : lookupF ((k, v) :: rest) p = lookupF rest p := by
        rw [lookupF, if_neg (fun hh => hp hh.symm)]
      simp only [hcons]
      have hacc : lookupF (ccStep flatFrom acc (k, v)) p = lookupF acc p := by
        rw [ccStep]
        by_cases hc : (!(strictEqLeaf (lookupF flatFrom k) v)) = true
        · rw [if_pos hc]
          exact lookupF_setKey_ne acc k p _ hp
        · rw [if_neg hc]
      cases lookupF rest p
      · simp [hacc]
      · simp [hacc]

/-- C9 counterexample: the two trees `{a:[1]}` are structurally equal,
yet compareChanges reports address `a` as changed — the array leaves of
the two flattenings are distinct objects and strict `===` compares them
by reference. -/
theorem arrayLeaf_reported_as_change :
    compareChanges (.obj [("a", .arr [.num 1])]) (.obj [("a", .arr [.num 1])]) =
      [("a", ⟨some (.arr [.num 1]), .arr [.num 1]⟩)] := by
  simp [compareChanges, ccStep, flattenObject, flattenInto, flattenFields, setKey,
    lookupF, strictEqLeaf]

/-- C9 amended: compareChanges returns an entry exactly for those
addresses present in the second tree's flattening whose value is not
strictly (`===`) equal to the first tree's flattening at that address.
An address absent on the first side always counts as differing; scalar
leaves compare by value; but an array (or other container) leaf
compares by reference, which is never true across two independently
built trees, so an array leaf is reported as a change even when its
contents are structurally equal on both sides. -/
theorem compareChanges_lookup (a b : Json) (p : String) :
    lookupF (compareChanges a b) p =
      (match lookupF (flattenObject b ".") p with
       | some v =>
         if !(strictEqLeaf (lookupF (flattenObject a ".") p) v) then
           some ⟨lookupF (flattenObject a ".") p, v⟩
         else none
       | none => none) := by
  rw [compareChanges, ccFold_lookup _ _ _ _ (flattenObject_nodup b ".")]
  cases lookupF (flattenObject b ".") p with
  | none => simp [lookupF]
  | some v => simp [lookupF]

theorem deepCompareCommon_obj (fs gs : List (String × Json)) :
    ∀ (ks : List String) (bp : String),
    (∀ k ∈ ks, (lookupF fs k).isSome ∧ (lookupF gs k).isSome) →
    deepCompareCommon (.obj fs) (.obj gs) ks bp = ks.flatMap (specCommonRecs fs gs bp) := by
  intro ks
  induction ks with
  | nil => intro bp _; simp [deepCompareCommon]
  | cons k rest ih =>
    intro bp h
    obtain ⟨h1, h2⟩ := h k (List.mem_cons_self _ _)
    rcases hv1 : lookupF fs k with _ | v1
    · rw [hv1] at h1; simp at h1
    rcases hv2 : lookupF gs k with _ | v2
    · rw [hv2] at h2; simp at h2
    rw [deepCompareCommon]
    have hrest := ih bp (fun j hj => h j (List.mem_cons_of_mem _ hj))
    rw [List.flatMap_cons, ← hrest]
    congr 1
    have hg1 : getProp (Json.obj fs) k = some v1 := by simpa [getProp, entriesOf] using hv1
    have hg2 : getProp (Json.obj gs) k = some v2 := by simpa [getProp, entriesOf] using hv2
    rw [specCommonRecs, hv1, hv2]
    simp only [hg1, hg2, Option.getD_some, dite_eq_ite]

/-- C5 counterexample: within one array container the records are NOT
grouped removes-then-adds-then-edits: diffing `[1]` against `[2,3]`
yields an `Edited` record at `[0]` followed by an `Added` record at
`[1]`, an Added after an Edited in the same container. -/
theorem array_records_interleaved :
    (deepCompare (.arr [.num 1]) (.arr [.num 2, .num 3]) "").map Change.kind =
      [ChangeKind.E, ChangeKind.N] := by
  simp [deepCompare, deepCompareArr, deepCompareCommon, jsTypeof, entriesOf, enumFrom,
    hasKey, lookupF, natToStr, digitsOf, natToStrAux, dotPath, idxPath, isNull, beqJ]

/-- C5 amended: deepCompare is a deterministic function, and within an
OBJECT container the records are grouped exactly as claimed: first all
`Removed` records in the left object's key order, then all `Added`
records in the right object's key order, then the per-key edited or
recursed records in the left object's key order restricted to the keys
present on both sides.  Array containers instead emit records in
ascending index order, interleaving the kinds (see the
counterexample). -/
theorem objectContainer_record_order (fs gs : List (String × Json)) (bp : String) :
    deepCompare (.obj fs) (.obj gs) bp =
      (fs.filter (fun p => !(hasKey gs p.1))).map
        (fun p => ⟨.D, dotPath bp p.1, some p.2, none⟩)
      ++ (gs.filter (fun p => !(hasKey fs p.1))).map
        (fun p => ⟨.N, dotPath bp p.1, none, some p.2⟩)
      ++ ((fs.map Prod.fst).filter (fun k => hasKey gs k)).flatMap
        (specCommonRecs fs gs bp) := by
  rw [deepCompare.eq_def]
  simp only [jsTypeof, bne_self_eq_false, if_false, Bool.false_eq_true, isNull,
    Bool.not_false, beq_self_eq_true, Bool.and_self, if_true, entriesOf]
  rw [deepCompareCommon_obj fs gs _ bp]
  intro k hk
  rcases List.mem_filter.mp hk with ⟨hmem, hgs⟩
  exact ⟨mem_map_fst_isSome hmem, by simpa [hasKey] using hgs⟩


theorem findConflicts_mem {lc rc : List (String × ChangeEntry)} {p : String}
    (h : p ∈ findConflicts lc rc) :
    (lookupF lc p).isSome ∧ (lookupF rc p).isSome := by
  rcases List.mem_filter.mp h with ⟨hmem, hcond⟩
  refine ⟨mem_map_fst_isSome hmem, ?_⟩
  cases hrc : lookupF rc p with
  | some _ => simp
  | none =>
    exfalso
    cases hlc : lookupF lc p <;> simp [hrc, hlc] at hcond

/-- C10: every conflict object returned by threeWayMerge carries both
the local and the remote changed value — neither field is ever absent —
because a conflict path is by construction a key of both sides' change
maps. -/
theorem conflicts_carry_both (b l r : Json) (res : MergeResult)
    (h : threeWayMerge b l r = some res) (c : Conflict) (hc : c ∈ res.conflicts) :
    c.localVal.isSome ∧ c.remoteVal.isSome := by
  rw [threeWayMerge] at h
  cases h1 : applyChangeList b (compareChanges b l)
      (findConflicts (compareChanges b l) (compareChanges b r)) with
  | none => rw [h1] at h; simp at h
  | some m1 =>
    rw [h1] at h
    simp only [Option.some_bind] at h
    cases h2 : applyChangeList m1 (compareChanges b r)
        (findConflicts (compareChanges b l) (compareChanges b r)) with
    | none => rw [h2] at h; simp at h
    | some m2 =>
      rw [h2] at h
      simp only [Option.map_some'] at h
      cases h
      rcases List.mem_map.mp hc with ⟨p, hp, rfl⟩
      obtain ⟨hl, hr⟩ := findConflicts_mem hp
      obtain ⟨le, hle⟩ := Option.isSome_iff_exists.mp hl
      obtain ⟨re, hre⟩ := Option.isSome_iff_exists.mp hr
      exact ⟨by simp [hle], by simp [hre]⟩

/-- Closed instance of `conflicts_carry_both` at the base/local/remote
triple `{x:1}`, `{x:2}`, `{x:3}`. -/
theorem conflicts_carry_both_witness :
    (Conflict.mk "x" (some (.num 2)) (some (.num 3))).localVal.isSome ∧
      (Conflict.mk "x" (some (.num 2)) (some (.num 3))).remoteVal.isSome :=
  conflicts_carry_both (.obj [("x", .num 1)]) (.obj [("x", .num 2)])
    (.obj [("x", .num 3)])
    ⟨.obj [("x", .num 1)], [⟨"x", some (.num 2), some (.num 3)⟩]⟩
    (by simp [threeWayMerge, compareChanges, ccStep, flattenObject, flattenInto,
      flattenFields, setKey, lookupF, strictEqLeaf, beqJ, findConflicts,
      applyChangeList, setValue, setPath, jsSplit, splitAux, dotPath])
    ⟨"x", some (.num 2), some (.num 3)⟩ (by decide)

theorem setKey_lookup_self {β : Type} {fs : List (String × β)} {k : String} {v : β}
    (h : lookupF fs k = some v) : setKey fs k v = fs := by
  induction fs with
  | nil => simp [lookupF] at h
  | cons q rest ih =>
    obtain ⟨k', w⟩ := q
    by_cases hk : k' = k
    · subst hk
      rw [lookupF, if_pos rfl] at h
      cases h
      rw [setKey, if_pos rfl]
    · rw [lookupF, if_neg hk] at h
      rw [setKey, if_neg hk, ih h]

theorem set_get_self : ∀ (xs : List Json) (i : Nat) (v : Json),
    xs.get? i = some v → xs.set i v = xs
  | [], _, _, h => by simp at h
  | x :: xs, 0, v, h => by
    simp at h
    subst h
    rfl
  | x :: xs, i + 1, v, h => by
    have h2 : xs.get? i = some v := h
    show x :: xs.set i v = x :: xs
    rw [set_get_self xs i v h2]

theorem setIdx_get_self (xs : List Json) (i : Nat) (v : Json)
    (h : xs.get? i = some v) : setIdx xs i v = xs := by
  have hlt : i < xs.length := by
    by_contra hge
    rw [List.get?_eq_none.mpr (by omega)] at h
    cases h
  rw [setIdx, if_pos hlt, set_get_self xs i v h]

theorem digitsOf_ne_nil (n : Nat) (h : n ≠ 0) : digitsOf n ≠ [] := by
  rw [digitsOf_succ n h]
  simp

theorem digitsOf_all_digits (n : Nat) : ∀ c ∈ digitsOf n, c.isDigit := by
  induction n using Nat.strong_induction_on with
  | _ n ih =>
    match n with
    | 0 => simp [digitsOf, natToStrAux]
    | m + 1 =>
      rw [digitsOf_succ (m + 1) (Nat.succ_ne_zero m)]
      intro c hc
      rcases List.mem_append.mp hc with hc | hc
      · exact ih ((m + 1) / 10) (Nat.div_lt_self (Nat.succ_pos m) (by omega)) c hc
      · have hd : (m + 1) % 10 < 10 := Nat.mod_lt _ (by omega)
        rcases List.mem_singleton.mp hc with rfl
        revert hd
        generalize (m + 1) % 10 = d
        intro hd
        interval_cases d <;> decide

theorem digitsOf_head_ne_zero (n : Nat) (hn : n ≠ 0) :
    (digitsOf n).head? ≠ some ('0' : Char) := by
  induction n using Nat.strong_induction_on with
  | _ n ih =>
    intro hcon
    rcases Nat.lt_or_ge n 10 with hlt | hge
    · rw [digitsOf_succ n hn, Nat.div_eq_of_lt hlt] at hcon
      have h0 : digitsOf 0 = [] := by simp [digitsOf, natToStrAux]
      rw [h0, List.nil_append, Nat.mod_eq_of_lt hlt] at hcon
      simp only [List.head?_cons, Option.some.injEq] at hcon
      have h1 : 1 ≤ n := Nat.one_le_iff_ne_zero.mpr hn
      interval_cases n <;> exact absurd hcon (by decide)
    · have hq : n / 10 ≠ 0 := by
        intro hz
        have := Nat.div_eq_of_lt (by omega : n < 10)
        omega
      rw [digitsOf_succ n hn] at hcon
      have hne := digitsOf_ne_nil (n / 10) hq
      cases hd : digitsOf (n / 10) with
      | nil => exact hne hd
      | cons c cs =>
        rw [hd, List.cons_append, List.head?_cons] at hcon
        apply ih (n / 10) (Nat.div_lt_self (by omega) (by omega)) hq
        rw [hd, List.head?_cons]
        exact hcon

theorem canonIdx_natToStr (n : Nat) : canonIdx (natToStr n) = some n := by
  by_cases h0 : n = 0
  · subst h0
    decide
  · have hne := digitsOf_ne_nil n h0
    have hstr : natToStr n = ⟨digitsOf n⟩ := by rw [natToStr, if_neg h0]
    rw [hstr, canonIdx]
    have hall : allDigits ⟨digitsOf n⟩ = true := by
      rw [allDigits]
      simp only [Bool.and_eq_true, bne_iff_ne]
      constructor
      · intro hcon
        exact hne (congrArg String.data hcon)
      · rw [List.all_eq_true]
        intro c hc
        simpa using digitsOf_all_digits n c hc
    have hhead : ((⟨digitsOf n⟩ : String).data.head? != some ('0' : Char)) = true := by
      simpa using digitsOf_head_ne_zero n h0
    rw [hall]
    simp only [hhead, Bool.true_and, Bool.or_true, if_true]
    rw [valOf_digitsOf]

theorem lookupF_enumFrom : ∀ (xs : List Json) (i : Nat) (k : String) (v : Json),
    lookupF (enumFrom i xs) k = some v →
    ∃ d, k = natToStr (i + d) ∧ xs.get? d = some v
  | [], i, k, v, h => by simp [enumFrom, lookupF] at h
  | x :: xs, i, k, v, h => by
    rw [enumFrom, lookupF] at h
    by_cases hk : natToStr i = k
    · rw [if_pos hk] at h
      cases h
      exact ⟨0, by simpa using hk.symm, rfl⟩
    · rw [if_neg hk] at h
      obtain ⟨d, hd, hg⟩ := lookupF_enumFrom xs (i + 1) k v h
      exact ⟨d + 1, by rw [hd]; congr 1; omega, by simpa using hg⟩

theorem setProp_getProp_self {t : Json} {k : String} {v : Json}
    (h : getProp t k = some v) : setPropJs t k v = t := by
  cases t with
  | null => simp [getProp, entriesOf, lookupF] at h
  | bool b => simp [getProp, entriesOf, lookupF] at h
  | num m => simp [getProp, entriesOf, lookupF] at h
  | str s => rfl
  | obj fs =>
    rw [setPropJs]
    rw [setKey_lookup_self (by simpa [getProp, entriesOf] using h)]
  | arr xs =>
    obtain ⟨d, hk, hg⟩ := lookupF_enumFrom xs 0 k v (by simpa [getProp, entriesOf] using h)
    rw [setPropJs]
    subst hk
    simp only [Nat.zero_add, canonIdx_natToStr]
    rw [setIdx_get_self xs d v hg]

theorem mergeArrays_self (xs : List Json) : mergeArrays xs xs = xs := by
  have key : ∀ (l res : List Json), (∀ x ∈ l, x ∈ res) →
      l.foldl (fun res item =>
        if (jsTypeof item == "object") && !(isNull item) then
          if res.any (fun i => beqJ i item) then res else res ++ [item]
        else
          if res.any (fun i => beqJ i item) then res else res ++ [item]) res = res := by
    intro l
    induction l with
    | nil => intro res _; rfl
    | cons x l ih =>
      intro res hmem
      have hany : res.any (fun i => beqJ i x) = true := by
        rw [List.any_eq_true]
        exact ⟨x, hmem x (List.mem_cons_self _ _), beqJ_refl x⟩
      rw [List.foldl_cons]
      have hstep : (if (jsTypeof x == "object") && !(isNull x) then
          if res.any (fun i => beqJ i x) then res else res ++ [x]
        else
          if res.any (fun i => beqJ i x) then res else res ++ [x]) = res := by
        rw [hany]
        simp
      rw [hstep]
      exact ih res (fun y hy => hmem y (List.mem_cons_of_mem _ hy))
  exact key xs xs (fun x hx => hx)


theorem mergeKey1_eq (opts : MergeOpts) (t s : Json) (k : String)
    (hn : isNull t = false) :
    mergeKey1 opts t s k =
      (let sv := (getProp s k).getD .null
       match getProp t k with
       | none => some (setPropJs t k sv)
       | some tv =>
         if mergeType sv != mergeType tv then
           if opts.strategy == "preserve" then some t
           else some (setPropJs t k sv)
         else if mergeType sv = "array" then
           match tv, sv with
           | .arr txs, .arr sxs =>
             if opts.arrayMerge == "overwrite" then some (setPropJs t k (.arr sxs))
             else if opts.arrayMerge == "concatenate" then
               some (setPropJs t k (.arr (txs ++ sxs)))
             else if opts.arrayMerge == "merge" then
               some (setPropJs t k (.arr (mergeArrays txs sxs)))
             else some t
           | _, _ => some t
         else if (mergeType sv == "object") && !(isNull sv) then
           match mergeInto opts tv sv with
           | none => none
           | some r => some (setPropJs t k r)
         else
           if opts.strategy == "preserve" then some t
           else some (setPropJs t k sv)) := by
  cases t with
  | null => simp [isNull] at hn
  | bool b => rw [mergeKey1.eq_def]; rfl
  | num m => rw [mergeKey1.eq_def]; rfl
  | str s2 => rw [mergeKey1.eq_def]; rfl
  | arr xs => rw [mergeKey1.eq_def]; rfl
  | obj fs => rw [mergeKey1.eq_def]; rfl

theorem mergeSelf_aux (n : Nat) : ∀ (t : Json) (am : String), sizeOf t ≤ n →
    isNull t = false → (am = "overwrite" ∨ am = "merge") →
    mergeInto ⟨"preserve", am⟩ t t = some t := by
  induction n with
  | zero =>
    intro t am hs
    exfalso
    cases t <;> simp at hs
  | succ n ih =>
    intro t am hs hn ham
    have hkey : ∀ k, (getProp t k).isSome → mergeKey1 ⟨"preserve", am⟩ t t k = some t := by
      intro k hk
      obtain ⟨sv, hsv⟩ := Option.isSome_iff_exists.mp hk
      rw [mergeKey1_eq _ _ _ _ hn]
      simp only [hsv, Option.getD_some, bne_self_eq_false, Bool.false_eq_true, if_false]
      by_cases harr : mergeType sv = "array"
      · rw [if_pos harr]
        cases sv with
        | arr sxs =>
          rcases ham with ham | ham <;> subst ham
          · simp only [beq_self_eq_true, if_true]
            rw [setProp_getProp_self hsv]
          · have h1 : (("merge" : String) == "overwrite") = false := by decide
            have h2 : (("merge" : String) == "concatenate") = false := by decide
            simp only [h1, h2, beq_self_eq_true, Bool.false_eq_true, if_false, if_true]
            rw [mergeArrays_self, setProp_getProp_self hsv]
        | null => simp [mergeType, jsTypeof] at harr
        | bool b => simp [mergeType, jsTypeof] at harr
        | num m => simp [mergeType, jsTypeof] at harr
        | str s2 => simp [mergeType, jsTypeof] at harr
        | obj gs => simp [mergeType, jsTypeof] at harr
      · rw [if_neg harr]
        by_cases hobj : ((mergeType sv == "object") && !(isNull sv)) = true
        · rw [if_pos hobj]
          simp only [Bool.and_eq_true, beq_iff_eq] at hobj
          have hsv_null : isNull sv = false := by simpa using hobj.2
          have hsv_lt : sizeOf sv < sizeOf t :=
            sizeOf_getProp_lt hsv (jsTypeof_of_mergeType hobj.1) hsv_null
          have hrec := ih sv am (by omega) hsv_null ham
          rw [hrec]
          show some (setPropJs t k sv) = some t
          rw [setProp_getProp_self hsv]
        · rw [if_neg hobj]
          simp
    have hlist : ∀ ks : List String, (∀ k ∈ ks, (getProp t k).isSome) →
        mergeKeys ⟨"preserve", am⟩ t t ks = some t := by
      intro ks
      induction ks with
      | nil => intro _; rw [mergeKeys]
      | cons k rest ihk =>
        intro hmem
        rw [mergeKeys]
        rw [hkey k (hmem k (List.mem_cons_self _ _))]
        exact ihk (fun j hj => hmem j (List.mem_cons_of_mem _ hj))
    rw [mergeInto, if_neg (by simp [hn])]
    exact hlist _ (fun k hk => mem_map_fst_isSome hk)

/-- C8 counterexample: merging the tree `{a:[1]}` with itself under the
`preserve` strategy and the `concatenate` array policy duplicates the
array — the array policy applies regardless of strategy — so the result
is `{a:[1,1]}`, not the input. -/
theorem mergeSelf_concatenate_fails :
    mergeJson (.obj [("a", .arr [.num 1])]) (.obj [("a", .arr [.num 1])])
      ⟨"preserve", "concatenate"⟩ = some (.obj [("a", .arr [.num 1, .num 1])]) ∧
    Json.obj [("a", .arr [.num 1, .num 1])] ≠ .obj [("a", .arr [.num 1])] := by
  constructor
  · simp [mergeJson, mergeInto, mergeKeys, mergeKey1, entriesOf, getProp, lookupF, setKey,
      mergeType, jsTypeof, isNull, setPropJs, enumFrom, natToStr, digitsOf, natToStrAux]
  · decide

/-- C8 amended: merging a non-null tree T with itself under the
`preserve` value strategy returns T when the array policy is `overwrite`
or `merge`; under `concatenate` the array policy still applies (it is
consulted regardless of strategy) and duplicates every array, and a null
tree throws (`Object.keys(null)`). -/
theorem mergeSelf_preserve (t : Json) (am : String) (hn : isNull t = false)
    (ham : am = "overwrite" ∨ am = "merge") :
    mergeJson t t ⟨"preserve", am⟩ = some t :=
  mergeSelf_aux (sizeOf t) t am (Nat.le_refl _) hn ham

/-- Closed instance of `mergeSelf_preserve` at `{a:[1]}` with the
`merge` array policy. -/
theorem mergeSelf_preserve_witness :
    isNull (.obj [("a", .arr [.num 1])]) = false ∧
      mergeJson (.obj [("a", .arr [.num 1])]) (.obj [("a", .arr [.num 1])])
        ⟨"preserve", "merge"⟩ = some (.obj [("a", .arr [.num 1])]) :=
  ⟨by decide, mergeSelf_preserve (.obj [("a", .arr [.num 1])]) "merge" (by decide)
    (Or.inr rfl)⟩

theorem data_append (a b : String) : (a ++ b).data = a.data ++ b.data := rfl

theorem string_ext {a b : String} (h : a.data = b.data) : a = b := by
  cases a
  cases b
  exact congrArg String.mk h

theorem append_ne_empty (a b : String) (h : a ≠ "") : a ++ b ≠ "" := by
  intro hc
  apply h
  have hd := congrArg String.data hc
  rw [data_append] at hd
  have : a.data = [] := by
    cases hl : a.data
    · rfl
    · rw [hl] at hd; simp at hd
  exact string_ext (by simpa using this)

theorem string_append_assoc (a b c : String) : a ++ b ++ c = a ++ (b ++ c) := by
  apply string_ext
  simp only [data_append, List.append_assoc]

theorem string_append_left_cancel {a b c : String} (h : a ++ b = a ++ c) : b = c := by
  apply string_ext
  have hd := congrArg String.data h
  simp only [data_append] at hd
  exact List.append_cancel_left hd

theorem splitAux_no_sep (c : Char) : ∀ (l : List Char), (∀ x ∈ l, x ≠ c) →
    splitAux c l = (l, []) := by
  intro l
  induction l with
  | nil => intro _; rfl
  | cons x xs ih =>
    intro h
    rw [splitAux]
    rw [ih (fun y hy => h y (List.mem_cons_of_mem _ hy))]
    simp [h x (List.mem_cons_self _ _)]

theorem splitAux_append_sep (c : Char) : ∀ (k l : List Char), (∀ x ∈ k, x ≠ c) →
    splitAux c (k ++ c :: l) = (k, (splitAux c l).1 :: (splitAux c l).2) := by
  intro k
  induction k with
  | nil =>
    intro l _
    rw [List.nil_append, splitAux]
    simp
  | cons x xs ih =>
    intro l h
    rw [List.cons_append, splitAux, ih l (fun y hy => h y (List.mem_cons_of_mem _ hy))]
    simp [h x (List.mem_cons_self _ _)]

theorem dotFree_chars {k : String} (h : dotFreeKey k = true) :
    ∀ x ∈ k.data, x ≠ ('.' : Char) := by
  rw [dotFreeKey] at h
  simp only [Bool.and_eq_true, List.all_eq_true, bne_iff_ne] at h
  intro x hx
  exact h.2 x hx

theorem jsSplit_single {k : String} (h : ∀ x ∈ k.data, x ≠ ('.' : Char)) :
    jsSplit '.' k = [k] := by
  rw [jsSplit]
  rw [splitAux_no_sep '.' k.data h]
  simp

theorem joinSep_cons (sep : String) (k : String) (ks : List String) (h : ks ≠ []) :
    joinSep sep (k :: ks) = k ++ sep ++ joinSep sep ks := by
  cases ks with
  | nil => exact absurd rfl h
  | cons k2 ks => rw [joinSep]

theorem jsSplit_joinSep : ∀ (ks : List String), ks ≠ [] →
    (∀ k ∈ ks, dotFreeKey k = true) → jsSplit '.' (joinSep "." ks) = ks := by
  intro ks
  induction ks with
  | nil => intro h; exact absurd rfl h
  | cons k rest ih =>
    intro _ hall
    cases rest with
    | nil =>
      rw [joinSep]
      exact jsSplit_single (dotFree_chars (hall k (List.mem_cons_self _ _)))
    | cons k2 ks2 =>
      rw [joinSep_cons "." k (k2 :: ks2) (by simp)]
      have hk := dotFree_chars (hall k (List.mem_cons_self _ _))
      have hdata : (k ++ "." ++ joinSep "." (k2 :: ks2)).data =
          k.data ++ '.' :: (joinSep "." (k2 :: ks2)).data := by
        simp [data_append]
      rw [jsSplit, hdata, splitAux_append_sep '.' k.data _ hk]
      have hrest := ih (by simp) (fun j hj => hall j (List.mem_cons_of_mem _ hj))
      rw [jsSplit] at hrest
      simpa using hrest

theorem joinSep_inj {ks1 ks2 : List String} (h1 : ks1 ≠ []) (h2 : ks2 ≠ [])
    (ha1 : ∀ k ∈ ks1, dotFreeKey k = true) (ha2 : ∀ k ∈ ks2, dotFreeKey k = true)
    (h : joinSep "." ks1 = joinSep "." ks2) : ks1 = ks2 := by
  have := jsSplit_joinSep ks1 h1 ha1
  rw [h, jsSplit_joinSep ks2 h2 ha2] at this
  exact this.symm

theorem setKey_append {β : Type} (acc : List (String × β)) (k : String) (v : β)
    (h : hasKey acc k = false) : setKey acc k v = acc ++ [(k, v)] := by
  induction acc with
  | nil => rfl
  | cons q rest ih =>
    obtain ⟨k', w⟩ := q
    simp only [hasKey, lookupF] at h
    by_cases hk : k' = k
    · rw [if_pos hk] at h
      simp at h
    · rw [if_neg hk] at h
      rw [setKey, if_neg hk, List.cons_append, ih (by simpa [hasKey] using h)]

theorem foldSetKey_fresh {β : Type} : ∀ (l acc : List (String × β)),
    nodupKeys l = true → (∀ p ∈ l, hasKey acc p.1 = false) →
    l.foldl (fun r p => setKey r p.1 p.2) acc = acc ++ l := by
  intro l
  induction l with
  | nil => intro acc _ _; simp
  | cons q rest ih =>
    intro acc hnd hfresh
    obtain ⟨k, v⟩ := q
    simp only [nodupKeys, Bool.and_eq_true] at hnd
    rw [List.foldl_cons, setKey_append acc k v (hfresh (k, v) (List.mem_cons_self _ _))]
    rw [ih (acc ++ [(k, v)]) hnd.2]
    · simp
    · intro p hp
      have h1 : hasKey acc p.1 = false := hfresh p (List.mem_cons_of_mem _ hp)
      have h2 : p.1 ≠ k := by
        intro hc
        have : hasKey rest k = false := by simpa using hnd.1
        have hk : (lookupF rest p.1).isSome := mem_map_fst_isSome
          (List.mem_map.mpr ⟨p, hp, rfl⟩)
        rw [hc] at hk
        simp [hasKey] at this
        rw [this] at hk
        simp at hk
      simp only [hasKey] at h1 ⊢
      cases hl : lookupF (acc ++ [(k, v)]) p.1
      · rfl
      · exfalso
        have hmem := lookupF_mem hl
        rcases List.mem_append.mp hmem with hm | hm
        · have : (lookupF acc p.1).isSome := mem_map_fst_isSome
            (List.mem_map.mpr ⟨_, hm, rfl⟩)
          rw [h1] at this
          simp at this
        · rcases List.mem_singleton.mp hm with hv
          exact h2 (by cases hv; rfl)

theorem extendPath_ne_cons (sep : String) : ∀ (ks : List String) (k path : String),
    path ≠ "" → extendPath sep path (k :: ks) = path ++ sep ++ joinSep sep (k :: ks) := by
  intro ks
  induction ks with
  | nil =>
    intro k path hp
    rw [extendPath, if_neg hp, extendPath, joinSep]
  | cons k2 ks2 ih =>
    intro k path hp
    rw [extendPath, if_neg hp]
    rw [ih k2 (path ++ sep ++ k) (append_ne_empty _ _ (append_ne_empty _ _ hp))]
    rw [joinSep_cons sep k (k2 :: ks2) (by simp)]
    apply string_ext
    simp [data_append]

theorem extendPath_empty (sep k : String) (ks : List String) (hk : k ≠ "") :
    extendPath sep "" (k :: ks) = joinSep sep (k :: ks) := by
  rw [extendPath, if_pos rfl]
  cases ks with
  | nil => rw [extendPath, joinSep]
  | cons k2 ks2 =>
    rw [extendPath_ne_cons sep ks2 k2 k hk, joinSep_cons sep k (k2 :: ks2) (by simp)]

theorem dotFreeKey_ne_empty {k : String} (h : dotFreeKey k = true) : k ≠ "" := by
  rw [dotFreeKey] at h
  simp only [Bool.and_eq_true, bne_iff_ne] at h
  exact h.1

theorem flatFields_cons {k : String} {v : Json} {fs : List (String × Json)}
    (h : flatFields ((k, v) :: fs) = true) :
    dotFreeKey k = true ∧ flatJson v = true ∧ flatFields fs = true := by
  cases v <;> rw [flatFields.eq_def] at h <;>
    simp only [Bool.and_eq_true, Bool.and_true] at h <;> tauto

theorem flatFields_cons_obj {k : String} {gs fs : List (String × Json)}
    (h : flatFields ((k, .obj gs) :: fs) = true) : gs.isEmpty = false := by
  rw [flatFields.eq_def] at h
  simp only [Bool.and_eq_true] at h
  simpa using h.1.2

theorem chains_spec_aux (n : Nat) : ∀ (fs : List (String × Json)), sizeOf fs ≤ n →
    flatFields fs = true → ∀ p ∈ leafChainsF fs,
    (∃ k ks, p.1 = k :: ks ∧ k ∈ fs.map Prod.fst) ∧
      (∀ k ∈ p.1, dotFreeKey k = true) := by
  induction n with
  | zero =>
    intro fs hs
    exfalso
    cases fs <;> simp at hs
  | succ n ih =>
    intro fs hs hff p hp
    cases fs with
    | nil => rw [leafChainsF] at hp; simp at hp
    | cons q rest =>
      obtain ⟨k, v⟩ := q
      have hffc := flatFields_cons hff
      rw [leafChainsF] at hp
      rcases List.mem_append.mp hp with hm | hm
      · rcases List.mem_map.mp hm with ⟨c, hc, rfl⟩
        refine ⟨⟨k, c.1, rfl, by simp⟩, ?_⟩
        intro j hj
        rcases List.mem_cons.mp hj with rfl | hj2
        · exact hffc.1
        · cases v with
          | obj gs =>
            rw [leafChains] at hc
            have hflat : flatFields gs = true := by
              have := hffc.2.1
              rw [flatJson] at this
              exact (Bool.and_eq_true _ _).mp this |>.2
            have hsz : sizeOf gs ≤ n := by
              simp only [List.cons.sizeOf_spec, Prod.mk.sizeOf_spec,
                Json.obj.sizeOf_spec] at hs
              omega
            exact (ih gs hsz hflat c hc).2 j hj2
          | null => simp [leafChains] at hc; subst hc; simp at hj2
          | bool b => simp [leafChains] at hc; subst hc; simp at hj2
          | num m => simp [leafChains] at hc; subst hc; simp at hj2
          | str s => simp [leafChains] at hc; subst hc; simp at hj2
          | arr xs => simp [leafChains] at hc; subst hc; simp at hj2
      · have hsz : sizeOf rest ≤ n := by
          simp only [List.cons.sizeOf_spec] at hs
          omega
        obtain ⟨⟨k2, ks2, h1, h2⟩, h3⟩ := ih rest hsz hffc.2.2 p hm
        exact ⟨⟨k2, ks2, h1, by rw [List.map_cons]; exact List.mem_cons_of_mem _ h2⟩, h3⟩

theorem foldl_ext_mem {α β : Type} {f g : α → β → α} : ∀ (l : List β) (init : α),
    (∀ acc p, p ∈ l → f acc p = g acc p) → l.foldl f init = l.foldl g init := by
  intro l
  induction l with
  | nil => intro init _; rfl
  | cons x xs ih =>
    intro init h
    rw [List.foldl_cons, List.foldl_cons, h init x (List.mem_cons_self _ _)]
    exact ih _ (fun acc p hp => h acc p (List.mem_cons_of_mem _ hp))

theorem hasKey_false_of_not_mem {β : Type} {l : List (String × β)} {k : String}
    (h : k ∉ l.map Prod.fst) : hasKey l k = false := by
  rw [hasKey]
  cases hl : lookupF l k
  · rfl
  · exact absurd (List.mem_map.mpr ⟨_, lookupF_mem hl, rfl⟩) h

theorem nodupKeys_of_nodup {β : Type} : ∀ {l : List (String × β)},
    (l.map Prod.fst).Nodup → nodupKeys l = true := by
  intro l
  induction l with
  | nil => intro _; rfl
  | cons q rest ih =>
    intro h
    rw [List.map_cons, List.nodup_cons] at h
    obtain ⟨k, v⟩ := q
    rw [nodupKeys]
    simp only [Bool.and_eq_true]
    exact ⟨by simp [hasKey_false_of_not_mem h.1], ih h.2⟩

theorem chains_nodup_aux (n : Nat) : ∀ (fs : List (String × Json)), sizeOf fs ≤ n →
    flatFields fs = true → nodupKeys fs = true →
    ((leafChainsF fs).map Prod.fst).Nodup := by
  induction n with
  | zero =>
    intro fs hs
    exfalso
    cases fs <;> simp at hs
  | succ n ih =>
    intro fs hs hff hnd
    cases fs with
    | nil => rw [leafChainsF]; simp
    | cons q rest =>
      obtain ⟨k, v⟩ := q
      have hffc := flatFields_cons hff
      simp only [nodupKeys, Bool.and_eq_true] at hnd
      rw [leafChainsF, List.map_append, List.nodup_append]
      have hcons_inj : Function.Injective (fun q : List String => k :: q) :=
        fun a b hab => by injection hab
      refine ⟨?_, ?_, ?_⟩
      · have : (List.map (fun p => (k :: p.1, p.2)) (leafChains v)).map Prod.fst =
            ((leafChains v).map Prod.fst).map (fun q => k :: q) := by
          simp [List.map_map]
        rw [this]
        apply List.Nodup.map hcons_inj
        cases v with
        | obj gs =>
          have hfv := hffc.2.1
          rw [flatJson] at hfv
          simp only [Bool.and_eq_true] at hfv
          have hsz : sizeOf gs ≤ n := by
            simp only [List.cons.sizeOf_spec, Prod.mk.sizeOf_spec,
              Json.obj.sizeOf_spec] at hs
            omega
          rw [leafChains]
          exact ih gs hsz hfv.2 hfv.1
        | null => simp [leafChains]
        | bool b => simp [leafChains]
        | num m => simp [leafChains]
        | str s => simp [leafChains]
        | arr xs => simp [leafChains]
      · have hsz : sizeOf rest ≤ n := by
          simp only [List.cons.sizeOf_spec] at hs
          omega
        exact ih rest hsz hffc.2.2 hnd.2
      · intro a ha hb
        rcases List.mem_map.mp ha with ⟨c, hc, rfl⟩
        rcases List.mem_map.mp hc with ⟨c0, _, rfl⟩
        rcases List.mem_map.mp hb with ⟨p, hp, hpe⟩
        have hsz : sizeOf rest ≤ n := by
          simp only [List.cons.sizeOf_spec] at hs
          omega
        obtain ⟨⟨k2, ks2, h1, h2⟩, _⟩ := chains_spec_aux n rest hsz hffc.2.2 p hp
        rw [h1] at hpe
        have hkk : k = k2 := by
          have := hpe
          simp only at this
          injection this.symm
        have hrk : hasKey rest k = false := by simpa using hnd.1
        subst hkk
        exact absurd h2 (by
          intro hmem
          rcases List.mem_map.mp hmem with ⟨q, hq, hqe⟩
          have : (lookupF rest k).isSome := mem_map_fst_isSome
            (List.mem_map.mpr ⟨q, hq, hqe⟩)
          rw [hasKey] at hrk
          rw [hrk] at this
          simp at this)

theorem flatten_chains_aux (n : Nat) :
    (∀ (j : Json) (sep : String) (res : List (String × Json)) (path : String),
      sizeOf j ≤ n →
      flattenInto sep res j path =
        (leafChains j).foldl (fun r p => setKey r (extendPath sep path p.1) p.2) res) ∧
    (∀ (fs : List (String × Json)) (sep : String) (res : List (String × Json))
      (path : String), sizeOf fs ≤ n →
      flattenFields sep res fs path =
        (leafChainsF fs).foldl (fun r p => setKey r (extendPath sep path p.1) p.2) res) := by
  induction n with
  | zero =>
    constructor
    · intro j sep res path hs
      exfalso
      cases j <;> simp at hs
    · intro fs sep res path hs
      exfalso
      cases fs <;> simp at hs
  | succ n ih =>
    obtain ⟨ihJ, ihF⟩ := ih
    constructor
    · intro j sep res path hs
      cases j with
      | obj fs =>
        rw [flattenInto, leafChains]
        exact ihF fs sep res path (by simp at hs; omega)
      | null => simp [flattenInto, leafChains, extendPath]
      | bool b => simp [flattenInto, leafChains, extendPath]
      | num m => simp [flattenInto, leafChains, extendPath]
      | str s => simp [flattenInto, leafChains, extendPath]
      | arr xs => simp [flattenInto, leafChains, extendPath]
    · intro fs sep res path hs
      cases fs with
      | nil => rw [flattenFields, leafChainsF]; simp
      | cons q rest =>
        obtain ⟨k, v⟩ := q
        rw [flattenFields, leafChainsF, List.foldl_append, List.foldl_map]
        rw [ihJ v sep res (if path = "" then k else path ++ sep ++ k)
          (by simp at hs; omega)]
        rw [ihF rest sep _ path (by simp at hs; omega)]
        have hin : (leafChains v).foldl
            (fun r p => setKey r (extendPath sep path (k :: p.1)) p.2) res =
            (leafChains v).foldl
              (fun r p => setKey r
                (extendPath sep (if path = "" then k else path ++ sep ++ k) p.1) p.2)
              res := by
          apply foldl_ext_mem
          intro acc p _
          rw [extendPath]
        rw [hin]

theorem flattenObject_chains (fs : List (String × Json)) (hff : flatFields fs = true)
    (hnd : nodupKeys fs = true) :
    flattenObject (.obj fs) "." =
      (leafChainsF fs).map (fun p => (joinSep "." p.1, p.2)) := by
  rw [flattenObject]
  rw [(flatten_chains_aux (sizeOf (Json.obj fs))).1 (.obj fs) "." [] "" (Nat.le_refl _)]
  rw [leafChains]
  have hext : (leafChainsF fs).foldl
      (fun r p => setKey r (extendPath "." "" p.1) p.2) [] =
      (leafChainsF fs).foldl (fun r p => setKey r (joinSep "." p.1) p.2) [] := by
    apply foldl_ext_mem
    intro acc p hp
    obtain ⟨⟨k2, ks2, h1, _⟩, h3⟩ := chains_spec_aux (sizeOf fs) fs (Nat.le_refl _) hff p hp
    rw [h1]
    rw [extendPath_empty "." k2 ks2
      (dotFreeKey_ne_empty (h3 k2 (by rw [h1]; exact List.mem_cons_self _ _)))]
  rw [hext]
  have hfold : (leafChainsF fs).foldl (fun r p => setKey r (joinSep "." p.1) p.2) [] =
      ((leafChainsF fs).map (fun p => (joinSep "." p.1, p.2))).foldl
        (fun r q => setKey r q.1 q.2) [] := by
    rw [List.foldl_map]
  rw [hfold]
  have hndm : nodupKeys ((leafChainsF fs).map (fun p => (joinSep "." p.1, p.2))) = true := by
    apply nodupKeys_of_nodup
    have : ((leafChainsF fs).map (fun p => (joinSep "." p.1, p.2))).map Prod.fst =
        ((leafChainsF fs).map Prod.fst).map (fun q => joinSep "." q) := by
      simp [List.map_map]
    rw [this]
    have hnodup := chains_nodup_aux (sizeOf fs) fs (Nat.le_refl _) hff hnd
    refine List.Nodup.map_on ?_ hnodup
    intro x hx y hy hxy
    rcases List.mem_map.mp hx with ⟨p, hp, rfl⟩
    rcases List.mem_map.mp hy with ⟨q, hq, rfl⟩
    obtain ⟨⟨kx, ksx, hx1, _⟩, hx3⟩ :=
      chains_spec_aux (sizeOf fs) fs (Nat.le_refl _) hff p hp
    obtain ⟨⟨ky, ksy, hy1, _⟩, hy3⟩ :=
      chains_spec_aux (sizeOf fs) fs (Nat.le_refl _) hff q hq
    exact joinSep_inj (by rw [hx1]; simp) (by rw [hy1]; simp) hx3 hy3 hxy
  rw [foldSetKey_fresh _ [] hndm (by intro p _; rfl)]
  simp

theorem foldl_bind_none (l : List (List String × Json)) :
    List.foldl (fun acc p => acc.bind (fun u => setPath u p.1 p.2)) none l = none := by
  induction l with
  | nil => rfl
  | cons x xs ih => rw [List.foldl_cons, Option.none_bind]; exact ih

theorem chainFold_nil (t : Json) : chainFold t [] = some t := rfl

theorem chainFold_cons (t : Json) (ks : List String) (v : Json)
    (l : List (List String × Json)) :
    chainFold t ((ks, v) :: l) = (setPath t ks v).bind (fun u => chainFold u l) := by
  rw [chainFold, List.foldl_cons, Option.some_bind]
  cases hs : setPath t ks v with
  | none => rw [Option.none_bind]; exact foldl_bind_none l
  | some u => rw [Option.some_bind, chainFold]

theorem chainFold_append (t : Json) (l1 l2 : List (List String × Json)) :
    chainFold t (l1 ++ l2) = (chainFold t l1).bind (fun u => chainFold u l2) := by
  rw [chainFold, List.foldl_append]
  show List.foldl _ (chainFold t l1) l2 = _
  cases h : chainFold t l1 with
  | none => rw [Option.none_bind]; exact foldl_bind_none l2
  | some u => rw [Option.some_bind, chainFold]

theorem setPath_obj_single (A : List (String × Json)) (k : String) (v : Json) :
    setPath (.obj A) [k] v = some (.obj (setKey A k v)) := rfl

theorem setPath_obj_cons_none {A : List (String × Json)} {k : String}
    (k2 : String) (rest : List String) (v : Json) (h : lookupF A k = none) :
    setPath (.obj A) (k :: k2 :: rest) v =
      (setPath (.obj []) (k2 :: rest) v).map (fun r => .obj (setKey A k r)) := by
  simp only [setPath, h]

theorem setPath_obj_cons_obj {A B : List (String × Json)} {k : String}
    (k2 : String) (rest : List String) (v : Json) (h : lookupF A k = some (.obj B)) :
    setPath (.obj A) (k :: k2 :: rest) v =
      (setPath (.obj B) (k2 :: rest) v).map (fun r => .obj (setKey A k r)) := by
  simp only [setPath, h, jsTypeof, truthy, beq_self_eq_true, Bool.and_self, if_true]

theorem setPath_obj_nil (A : List (String × Json)) (v : Json) :
    setPath (.obj A) [] v = some (.obj (setKey A "undefined" v)) := rfl

theorem setPath_obj_result {A : List (String × Json)} : ∀ {ks : List String}
    {v u : Json}, setPath (.obj A) ks v = some u → ∃ B, u = .obj B := by
  intro ks v u h
  match ks with
  | [] =>
    rw [setPath_obj_nil] at h
    exact ⟨_, ((Option.some.injEq _ _).mp h).symm⟩
  | [k] =>
    rw [setPath_obj_single] at h
    exact ⟨_, ((Option.some.injEq _ _).mp h).symm⟩
  | k :: k2 :: rest =>
    simp only [setPath] at h
    cases hl : lookupF A k with
    | none =>
      simp only [hl] at h
      rcases Option.map_eq_some'.mp h with ⟨r, _, rfl⟩
      exact ⟨_, rfl⟩
    | some c =>
      simp only [hl] at h
      by_cases hc : ((jsTypeof c == "object") && truthy c) = true
      · rw [if_pos hc] at h
        rcases Option.map_eq_some'.mp h with ⟨r, _, rfl⟩
        exact ⟨_, rfl⟩
      · rw [if_neg hc] at h
        rcases Option.map_eq_some'.mp h with ⟨r, _, rfl⟩
        exact ⟨_, rfl⟩

theorem setKey_setKey {β : Type} : ∀ (l : List (String × β)) (k : String) (x y : β),
    setKey (setKey l k x) k y = setKey l k y := by
  intro l k x y
  induction l with
  | nil => simp [setKey]
  | cons q rest ih =>
    obtain ⟨k', w⟩ := q
    by_cases hk : k' = k
    · subst hk
      simp [setKey]
    · simp only [setKey, if_neg hk, ih]

theorem chainFold_prefixed : ∀ (chains : List (List String × Json)),
    (∀ p ∈ chains, p.1 ≠ []) →
    ∀ (A : List (String × Json)) (k : String) (B C : List (String × Json)),
    lookupF A k = some (.obj B) →
    chainFold (.obj B) chains = some (.obj C) →
    chainFold (.obj A) (chains.map (fun p => (k :: p.1, p.2))) =
      some (.obj (setKey A k (.obj C))) := by
  intro chains
  induction chains with
  | nil =>
    intro _ A k B C hl hc
    rw [chainFold_nil] at hc
    have hBC : B = C := by
      injection hc with hc2
      injection hc2
    subst hBC
    rw [List.map_nil, chainFold_nil, setKey_lookup_self hl]
  | cons p rest ih =>
    intro hne A k B C hl hc
    obtain ⟨ks, v⟩ := p
    have hks : ks ≠ [] := hne (ks, v) (List.mem_cons_self _ _)
    cases ks with
    | nil => exact absurd rfl hks
    | cons k2 ks2 =>
      rw [chainFold_cons] at hc
      cases hsp : setPath (.obj B) (k2 :: ks2) v with
      | none => rw [hsp, Option.none_bind] at hc; cases hc
      | some u =>
        rw [hsp, Option.some_bind] at hc
        obtain ⟨B2, rfl⟩ := setPath_obj_result hsp
        rw [List.map_cons, chainFold_cons]
        rw [setPath_obj_cons_obj k2 ks2 v hl, hsp]
        rw [Option.map_some', Option.some_bind]
        rw [ih (fun q hq => hne q (List.mem_cons_of_mem _ hq))
          (setKey A k (.obj B2)) k B2 C (lookupF_setKey_self A k (.obj B2)) hc]
        rw [setKey_setKey]

theorem hasKey_append {β : Type} : ∀ (l1 l2 : List (String × β)) (q : String),
    hasKey (l1 ++ l2) q = (hasKey l1 q || hasKey l2 q) := by
  intro l1 l2 q
  induction l1 with
  | nil => simp [hasKey, lookupF]
  | cons p rest ih =>
    obtain ⟨k, w⟩ := p
    by_cases hk : k = q
    · subst hk
      simp [hasKey, lookupF]
    · simp only [List.cons_append, hasKey, lookupF, if_neg hk] at ih ⊢
      exact ih

theorem chainFold_chains_aux (n : Nat) : ∀ (fs : List (String × Json)),
    sizeOf fs ≤ n → flatFields fs = true → nodupKeys fs = true →
    ∀ (A : List (String × Json)), (∀ p ∈ fs, hasKey A p.1 = false) →
    chainFold (.obj A) (leafChainsF fs) = some (.obj (A ++ fs)) := by
  induction n with
  | zero =>
    intro fs hs
    exfalso
    cases fs <;> simp at hs
  | succ n ih =>
    intro fs hs hff hnd A hfresh
    cases fs with
    | nil => rw [leafChainsF, chainFold_nil]; simp
    | cons q rest =>
      obtain ⟨k, v⟩ := q
      have hffc := flatFields_cons hff
      simp only [nodupKeys, Bool.and_eq_true] at hnd
      have hAk : hasKey A k = false := hfresh (k, v) (List.mem_cons_self _ _)
      have hAkl : lookupF A k = none := by
        rw [hasKey] at hAk
        cases hl : lookupF A k
        · rfl
        · rw [hl] at hAk; simp at hAk
      rw [leafChainsF, chainFold_append]
      have hfirst : chainFold (.obj A)
          ((leafChains v).map (fun p => (k :: p.1, p.2))) =
          some (.obj (setKey A k v)) := by
        cases v with
        | obj gs =>
          have hfv := hffc.2.1
          rw [flatJson] at hfv
          simp only [Bool.and_eq_true] at hfv
          have hsz : sizeOf gs ≤ n := by
            simp only [List.cons.sizeOf_spec, Prod.mk.sizeOf_spec,
              Json.obj.sizeOf_spec] at hs
            omega
          have hgs := ih gs hsz hfv.2 hfv.1 [] (fun p _ => rfl)
          rw [List.nil_append] at hgs
          have hgs_ne : gs.isEmpty = false := flatFields_cons_obj hff
          cases hch : leafChainsF gs with
          | nil =>
            exfalso
            rw [hch, chainFold_nil] at hgs
            have : ([] : List (String × Json)) = gs := by
              injection hgs with h2
              injection h2
            rw [← this] at hgs_ne
            simp at hgs_ne
          | cons c0 cs =>
            obtain ⟨ks0, v0⟩ := c0
            have hspec := chains_spec_aux (sizeOf gs) gs (Nat.le_refl _) hfv.2
            have hks0 : ∃ k0 ks0t, ks0 = k0 :: ks0t :=
              match (hspec (ks0, v0) (by rw [hch]; exact List.mem_cons_self _ _)).1 with
              | ⟨k0, ks0t, h1, _⟩ => ⟨k0, ks0t, h1⟩
            obtain ⟨k0, ks0t, rfl⟩ := hks0
            rw [hch, chainFold_cons] at hgs
            cases hs0 : setPath (.obj []) (k0 :: ks0t) v0 with
            | none => rw [hs0, Option.none_bind] at hgs; cases hgs
            | some u =>
              rw [hs0, Option.some_bind] at hgs
              obtain ⟨B0, rfl⟩ := setPath_obj_result hs0
              rw [leafChains, hch, List.map_cons, chainFold_cons]
              rw [setPath_obj_cons_none k0 ks0t v0 hAkl, hs0]
              rw [Option.map_some', Option.some_bind]
              have hrest_ne : ∀ p ∈ cs, p.1 ≠ [] := by
                intro p hp
                obtain ⟨⟨kp, ksp, h1, _⟩, _⟩ :=
                  hspec p (by rw [hch]; exact List.mem_cons_of_mem _ hp)
                rw [h1]
                simp
              rw [chainFold_prefixed cs hrest_ne (setKey A k (.obj B0)) k B0 gs
                (lookupF_setKey_self A k (.obj B0)) hgs]
              rw [setKey_setKey]
        | null =>
          simp only [leafChains, List.map_cons, List.map_nil]
          rw [chainFold_cons, setPath_obj_single, Option.some_bind, chainFold_nil]
        | bool b =>
          simp only [leafChains, List.map_cons, List.map_nil]
          rw [chainFold_cons, setPath_obj_single, Option.some_bind, chainFold_nil]
        | num m =>
          simp only [leafChains, List.map_cons, List.map_nil]
          rw [chainFold_cons, setPath_obj_single, Option.some_bind, chainFold_nil]
        | str s =>
          simp only [leafChains, List.map_cons, List.map_nil]
          rw [chainFold_cons, setPath_obj_single, Option.some_bind, chainFold_nil]
        | arr xs =>
          simp only [leafChains, List.map_cons, List.map_nil]
          rw [chainFold_cons, setPath_obj_single, Option.some_bind, chainFold_nil]
      rw [hfirst, Option.some_bind]
      rw [setKey_append A k v (by rw [hasKey]; rw [hAkl]; rfl)]
      have hsz : sizeOf rest ≤ n := by
        simp only [List.cons.sizeOf_spec] at hs
        omega
      have hfresh2 : ∀ p ∈ rest, hasKey (A ++ [(k, v)]) p.1 = false := by
        intro p hp
        rw [hasKey_append]
        have h1 : hasKey A p.1 = false := hfresh p (List.mem_cons_of_mem _ hp)
        have h2 : p.1 ≠ k := by
          intro hc
          have hk : (lookupF rest p.1).isSome := mem_map_fst_isSome
            (List.mem_map.mpr ⟨p, hp, rfl⟩)
          have : hasKey rest k = false := by simpa using hnd.1
          rw [hasKey] at this
          rw [hc] at hk
          cases hl : lookupF rest k
          · rw [hl] at hk; simp at hk
          · rw [hl] at this; simp at this
        rw [h1]
        simp only [Bool.false_or, hasKey, lookupF]
        have hne : ¬(k = p.1) := fun h => h2 h.symm
        rw [if_neg hne]
        rfl
      rw [ih rest hsz hffc.2.2 hnd.2 (A ++ [(k, v)]) hfresh2]
      simp

/-- C7 counterexample: the object tree `{a:{}}` contains no arrays, yet
the flatten/unflatten round trip loses it — flatten records leaves only,
so an empty nested object produces no entry at all, and unflattening the
empty flat map returns `{}`, not `{a:{}}`. -/
theorem flatten_drops_empty_object :
    unflattenObject (flattenObject (.obj [("a", .obj [])]) ".") '.' =
      some (.obj []) ∧
    Json.obj [] ≠ Json.obj [("a", Json.obj [])] := by
  constructor
  · simp [flattenObject, flattenInto, flattenFields, unflattenObject, unflattenFold]
  · decide

/-- C7 amended: the flatten/unflatten round trip holds for object trees
without arrays whose keys are nonempty and free of the separator `.` and
duplicates, and in which every nested object is nonempty: flatten
records each leaf under its dot-joined key chain, and unflatten rebuilds
exactly the original tree.  (An empty nested object is dropped by
flatten — see the counterexample — and a key containing a dot is split
back into a chain, so the restriction is necessary.) -/
theorem flatten_unflatten_roundtrip (fs : List (String × Json))
    (h : flatJson (.obj fs) = true) :
    unflattenObject (flattenObject (.obj fs) ".") '.' = some (.obj fs) := by
  rw [flatJson] at h
  simp only [Bool.and_eq_true] at h
  rw [flattenObject_chains fs h.2 h.1]
  rw [unflattenObject, unflattenFold, List.foldl_map]
  have hsplit : (leafChainsF fs).foldl
      (fun acc p => acc.bind (fun u => setPath u (jsSplit '.' (joinSep "." p.1)) p.2))
      (some (.obj [])) =
      (leafChainsF fs).foldl
        (fun acc p => acc.bind (fun u => setPath u p.1 p.2)) (some (.obj [])) := by
    apply foldl_ext_mem
    intro acc p hp
    obtain ⟨⟨k2, ks2, h1, _⟩, h3⟩ :=
      chains_spec_aux (sizeOf fs) fs (Nat.le_refl _) h.2 p hp
    rw [jsSplit_joinSep p.1 (by rw [h1]; simp) h3]
  rw [hsplit]
  have hcf := chainFold_chains_aux (sizeOf fs) fs (Nat.le_refl _) h.2 h.1 []
    (fun p _ => rfl)
  rw [chainFold, List.nil_append] at hcf
  exact hcf

/-- Closed instance of `flatten_unflatten_roundtrip` at the arrayless
tree `{a:{b:1},c:2}`. -/
theorem flatten_unflatten_roundtrip_witness :
    flatJson (.obj [("a", .obj [("b", .num 1)]), ("c", .num 2)]) = true ∧
      unflattenObject (flattenObject
          (.obj [("a", .obj [("b", .num 1)]), ("c", .num 2)]) ".") '.' =
        some (.obj [("a", .obj [("b", .num 1)]), ("c", .num 2)]) :=
  ⟨by simp [flatJson, flatFields, nodupKeys, hasKey, lookupF, dotFreeKey],
    flatten_unflatten_roundtrip [("a", .obj [("b", .num 1)]), ("c", .num 2)]
      (by simp [flatJson, flatFields, nodupKeys, hasKey, lookupF, dotFreeKey])⟩

theorem dotPath_empty (k : String) : dotPath "" k = k := by
  rw [dotPath, if_pos rfl]

theorem dotPath_ne (bp k : String) (h : bp ≠ "") : dotPath bp k = bp ++ "." ++ k := by
  rw [dotPath, if_neg h]

theorem niceKey_parts {k : String} (h : niceKey k = true) :
    k ≠ "" ∧ (∀ x ∈ k.data, x ≠ ('.' : Char)) ∧ (∀ x ∈ k.data, x ≠ ('/' : Char)) := by
  rw [niceKey] at h
  simp only [Bool.and_eq_true] at h
  refine ⟨dotFreeKey_ne_empty h.1, dotFree_chars h.1, ?_⟩
  intro x hx
  have := h.2
  simp only [List.all_eq_true, bne_iff_ne] at this
  exact this x hx

theorem dotPath_assoc (bp k p : String) (hk : k ≠ "") (hp : p ≠ "") :
    dotPath (dotPath bp k) p = dotPath bp (dotPath k p) := by
  by_cases hbp : bp = ""
  · subst hbp
    rw [dotPath_empty, dotPath_empty]
  · rw [dotPath_ne bp k hbp, dotPath_ne k p hk,
      dotPath_ne _ p (append_ne_empty _ _ (append_ne_empty _ _ hbp)),
      dotPath_ne bp _ hbp]
    apply string_ext
    simp [data_append]

theorem replaceDots_append (a b : String) :
    replaceDots (a ++ b) = replaceDots a ++ replaceDots b := by
  apply string_ext
  simp [replaceDots, data_append]

theorem replaceDots_nodot {k : String} (h : ∀ x ∈ k.data, x ≠ ('.' : Char)) :
    replaceDots k = k := by
  apply string_ext
  rw [replaceDots]
  show k.data.map _ = k.data
  have : ∀ (l : List Char), (∀ x ∈ l, x ≠ ('.' : Char)) →
      l.map (fun c => if c = '.' then '/' else c) = l := by
    intro l
    induction l with
    | nil => intro _; rfl
    | cons c cs ih =>
      intro hl
      rw [List.map_cons, if_neg (hl c (List.mem_cons_self _ _)),
        ih (fun x hx => hl x (List.mem_cons_of_mem _ hx))]
  exact this k.data h

theorem replaceDots_dot : replaceDots "." = "/" := by decide

theorem replaceDots_joinSep : ∀ (ch : List String),
    (∀ x ∈ ch, ∀ c ∈ x.data, c ≠ ('.' : Char)) →
    replaceDots (joinSep "." ch) = joinSep "/" ch := by
  intro ch
  induction ch with
  | nil => intro _; decide
  | cons k rest ih =>
    intro h
    cases rest with
    | nil =>
      rw [joinSep, joinSep]
      exact replaceDots_nodot (h k (List.mem_cons_self _ _))
    | cons k2 ks2 =>
      rw [joinSep_cons "." k (k2 :: ks2) (by simp), joinSep_cons "/" k (k2 :: ks2) (by simp)]
      rw [replaceDots_append, replaceDots_append]
      rw [replaceDots_nodot (h k (List.mem_cons_self _ _)), replaceDots_dot]
      rw [ih (fun x hx => h x (List.mem_cons_of_mem _ hx))]

theorem jsSplit_single_any (c : Char) {k : String} (h : ∀ x ∈ k.data, x ≠ c) :
    jsSplit c k = [k] := by
  rw [jsSplit]
  rw [splitAux_no_sep c k.data h]
  simp

theorem jsSplit_joinSep_slash : ∀ (ks : List String), ks ≠ [] →
    (∀ k ∈ ks, k ≠ "" ∧ ∀ x ∈ k.data, x ≠ ('/' : Char)) →
    jsSplit '/' (joinSep "/" ks) = ks := by
  intro ks
  induction ks with
  | nil => intro h; exact absurd rfl h
  | cons k rest ih =>
    intro _ hall
    cases rest with
    | nil =>
      rw [joinSep]
      exact jsSplit_single_any '/' (hall k (List.mem_cons_self _ _)).2
    | cons k2 ks2 =>
      rw [joinSep_cons "/" k (k2 :: ks2) (by simp)]
      have hk := (hall k (List.mem_cons_self _ _)).2
      have hdata : (k ++ "/" ++ joinSep "/" (k2 :: ks2)).data =
          k.data ++ '/' :: (joinSep "/" (k2 :: ks2)).data := by
        simp [data_append]
      rw [jsSplit, hdata, splitAux_append_sep '/' k.data _ hk]
      have hrest := ih (by simp) (fun j hj => hall j (List.mem_cons_of_mem _ hj))
      rw [jsSplit] at hrest
      simpa using hrest

theorem jsSplit_slash_cons (s : String) :
    jsSplit '/' ("/" ++ s) = "" :: jsSplit '/' s := by
  have hdata : ("/" ++ s).data = '/' :: s.data := by simp [data_append]
  rw [jsSplit, hdata, splitAux]
  simp [jsSplit]

theorem pointerParts_chain (ch : List String) (hne : ch ≠ [])
    (hnice : ∀ x ∈ ch, niceKey x = true) :
    pointerParts ("/" ++ replaceDots (joinSep "." ch)) = ch := by
  rw [replaceDots_joinSep ch (fun x hx => (niceKey_parts (hnice x hx)).2.1)]
  rw [pointerParts, jsSplit_slash_cons]
  rw [jsSplit_joinSep_slash ch hne
    (fun x hx => ⟨(niceKey_parts (hnice x hx)).1, (niceKey_parts (hnice x hx)).2.2⟩)]
  rw [List.filter_cons]
  have h0 : ¬(("" : String) ≠ "") := fun h => h rfl
  simp only [decide_eq_true_eq]
  rw [if_neg h0]
  rw [List.filter_eq_self.mpr]
  intro a ha
  simp only [decide_eq_true_eq]
  exact (niceKey_parts (hnice a ha)).1

theorem pointerParts_single (k : String) (h : niceKey k = true) :
    pointerParts ("/" ++ k) = [k] := by
  have := pointerParts_chain [k] (by simp) (by simpa using h)
  rw [joinSep] at this
  rw [replaceDots_nodot (niceKey_parts h).2.1] at this
  exact this

theorem lookupF_of_mem_nodup {β : Type} : ∀ {fs : List (String × β)} {k : String} {v : β},
    nodupKeys fs = true → (k, v) ∈ fs → lookupF fs k = some v := by
  intro fs
  induction fs with
  | nil => intro k v _ h; simp at h
  | cons q rest ih =>
    intro k v hnd hmem
    obtain ⟨k', w⟩ := q
    simp only [nodupKeys, Bool.and_eq_true] at hnd
    rcases List.mem_cons.mp hmem with heq | hmem2
    · cases heq
      rw [lookupF, if_pos rfl]
    · by_cases hk : k' = k
      · exfalso
        subst hk
        have hk2 : (lookupF rest k').isSome := mem_map_fst_isSome
          (List.mem_map.mpr ⟨(k', v), hmem2, rfl⟩)
        have := hnd.1
        simp only [hasKey, Bool.not_eq_true'] at this
        rw [this] at hk2
        simp at hk2
      · rw [lookupF, if_neg hk]
        exact ih hnd.2 hmem2

theorem nodup_keys_Nodup {β : Type} : ∀ {l : List (String × β)},
    nodupKeys l = true → (l.map Prod.fst).Nodup := by
  intro l
  induction l with
  | nil => intro _; simp
  | cons q rest ih =>
    intro h
    obtain ⟨k, v⟩ := q
    simp only [nodupKeys, Bool.and_eq_true] at h
    rw [List.map_cons, List.nodup_cons]
    refine ⟨?_, ih h.2⟩
    intro hmem
    rcases List.mem_map.mp hmem with ⟨p, hp, hpe⟩
    have : (lookupF rest k).isSome := mem_map_fst_isSome
      (List.mem_map.mpr ⟨p, hp, hpe⟩)
    have h1 := h.1
    simp only [hasKey, Bool.not_eq_true'] at h1
    rw [h1] at this
    simp at this

theorem hasKey_mem {β : Type} {l : List (String × β)} {k : String}
    (h : hasKey l k = true) : k ∈ l.map Prod.fst := by
  rw [hasKey] at h
  cases hl : lookupF l k with
  | none => rw [hl] at h; simp at h
  | some v => exact List.mem_map.mpr ⟨(k, v), lookupF_mem hl, rfl⟩

theorem lookupF_append_left {β : Type} : ∀ {l1 : List (String × β)}
    (l2 : List (String × β)) {k : String} {v : β},
    lookupF l1 k = some v → lookupF (l1 ++ l2) k = some v := by
  intro l1
  induction l1 with
  | nil => intro l2 k v h; simp [lookupF] at h
  | cons q rest ih =>
    intro l2 k v h
    obtain ⟨k', w⟩ := q
    rw [lookupF] at h
    rw [List.cons_append, lookupF]
    by_cases hk : k' = k
    · rw [if_pos hk] at h ⊢
      exact h
    · rw [if_neg hk] at h ⊢
      exact ih l2 h

theorem lookupF_append_right {β : Type} : ∀ {l1 : List (String × β)}
    (l2 : List (String × β)) {k : String},
    lookupF l1 k = none → lookupF (l1 ++ l2) k = lookupF l2 k := by
  intro l1
  induction l1 with
  | nil => intro l2 k _; simp
  | cons q rest ih =>
    intro l2 k h
    obtain ⟨k', w⟩ := q
    rw [lookupF] at h
    rw [List.cons_append, lookupF]
    by_cases hk : k' = k
    · rw [if_pos hk] at h
      cases h
    · rw [if_neg hk] at h ⊢
      exact ih l2 h

theorem hasKey_filter_imp {β : Type} {l : List (String × β)} {f : String × β → Bool}
    {k : String} (h : hasKey (l.filter f) k = true) : hasKey l k = true := by
  rcases List.mem_map.mp (hasKey_mem h) with ⟨p, hp, rfl⟩
  exact mem_map_fst_isSome
    (List.mem_map.mpr ⟨p, (List.mem_filter.mp hp).1, rfl⟩)

theorem nodupKeys_filter {β : Type} (f : String × β → Bool) :
    ∀ {l : List (String × β)}, nodupKeys l = true → nodupKeys (l.filter f) = true := by
  intro l
  induction l with
  | nil => intro _; rfl
  | cons q rest ih =>
    intro h
    obtain ⟨k, v⟩ := q
    simp only [nodupKeys, Bool.and_eq_true] at h
    rw [List.filter_cons]
    by_cases hf : f (k, v) = true
    · rw [if_pos hf]
      rw [nodupKeys]
      simp only [Bool.and_eq_true]
      refine ⟨?_, ih h.2⟩
      have h1 := h.1
      simp only [Bool.not_eq_true'] at h1 ⊢
      cases hfk : hasKey (List.filter f rest) k
      · rfl
      · exact absurd (hasKey_filter_imp hfk) (by rw [h1]; simp)
    · rw [if_neg hf]
      exact ih h.2

theorem nodupKeys_append {β : Type} : ∀ {l1 l2 : List (String × β)},
    nodupKeys l1 = true → nodupKeys l2 = true →
    (∀ p ∈ l2, hasKey l1 p.1 = false) → nodupKeys (l1 ++ l2) = true := by
  intro l1
  induction l1 with
  | nil => intro l2 _ h2 _; simpa using h2
  | cons q rest ih =>
    intro l2 h1 h2 hdisj
    obtain ⟨k, v⟩ := q
    simp only [nodupKeys, Bool.and_eq_true] at h1
    rw [List.cons_append, nodupKeys]
    simp only [Bool.and_eq_true]
    constructor
    · rw [hasKey_append]
      have ha := h1.1
      simp only [Bool.not_eq_true'] at ha ⊢
      rw [ha, Bool.false_or]
      cases hk2 : hasKey l2 k
      · rfl
      · exfalso
        rcases List.mem_map.mp (hasKey_mem hk2) with ⟨p, hp, hpe⟩
        have := hdisj p hp
        rw [hpe] at this
        simp [hasKey, lookupF] at this
    · exact ih h1.2 h2 (by
        intro p hp
        have := hdisj p hp
        simp only [hasKey, lookupF] at this ⊢
        by_cases hk : k = p.1
        · rw [if_pos hk] at this
          simp at this
        · rw [if_neg hk] at this
          exact this)

theorem map_fst_filter_comm {β : Type} (f : String → Bool) :
    ∀ (l : List (String × β)),
    (l.filter (fun p => f p.1)).map Prod.fst = (l.map Prod.fst).filter f := by
  intro l
  induction l with
  | nil => rfl
  | cons q rest ih =>
    obtain ⟨k, v⟩ := q
    rw [List.map_cons, List.filter_cons, List.filter_cons]
    by_cases hf : f k = true
    · simp only [hf, if_true, List.map_cons, ih]
    · simp only [Bool.not_eq_true] at hf
      simp only [hf, Bool.false_eq_true, if_false, ih]

theorem niceJson_obj_parts {fs : List (String × Json)}
    (h : niceJson (.obj fs) = true) :
    nodupKeys fs = true ∧ niceFields fs = true := by
  rw [niceJson] at h
  exact (Bool.and_eq_true _ _).mp h

theorem niceFields_mem : ∀ {fs : List (String × Json)},
    niceFields fs = true → ∀ p ∈ fs, niceKey p.1 = true ∧ niceJson p.2 = true := by
  intro fs
  induction fs with
  | nil => intro _ p hp; simp at hp
  | cons q rest ih =>
    intro h p hp
    obtain ⟨k, v⟩ := q
    rw [niceFields] at h
    simp only [Bool.and_eq_true] at h
    rcases List.mem_cons.mp hp with rfl | hp2
    · exact ⟨h.1.1, h.1.2⟩
    · exact ih h.2 p hp2

theorem nice_lookup {fs : List (String × Json)} {k : String} {v : Json}
    (hn : niceJson (.obj fs) = true) (hl : lookupF fs k = some v) :
    niceKey k = true ∧ niceJson v = true :=
  niceFields_mem (niceJson_obj_parts hn).2 (k, v) (lookupF_mem hl)

theorem obj_of_nice {v : Json} (hn : niceJson v = true)
    (ht : jsTypeof v = "object") (hnull : isNull v = false) :
    ∃ cs, v = .obj cs := by
  cases v with
  | obj cs => exact ⟨cs, rfl⟩
  | null => simp [isNull] at hnull
  | bool b => simp [jsTypeof] at ht
  | num m => simp [jsTypeof] at ht
  | str s => simp [jsTypeof] at ht
  | arr xs => rw [niceJson] at hn; cases hn

theorem jsonEquiv_obj (fs gs : List (String × Json)) :
    jsonEquiv (.obj fs) (.obj gs) =
      (subEquiv fs gs && gs.all (fun p => hasKey fs p.1)) := by
  rw [jsonEquiv]

theorem subEquiv_of_forall : ∀ (l gs : List (String × Json)),
    (∀ p ∈ l, ∃ w, lookupF gs p.1 = some w ∧ jsonEquiv p.2 w = true) →
    subEquiv l gs = true := by
  intro l gs
  induction l with
  | nil => intro _; rw [subEquiv]
  | cons q rest ih =>
    intro h
    obtain ⟨k, v⟩ := q
    obtain ⟨w, hw, hequiv⟩ := h (k, v) (List.mem_cons_self _ _)
    rw [subEquiv]
    simp only [Bool.and_eq_true]
    constructor
    · split
      · rename_i w2 hw2
        rw [hw] at hw2
        injection hw2 with hww
        subst hww
        exact hequiv
      · rename_i hw2
        rw [hw] at hw2
        cases hw2
    · exact ih (fun p hp => h p (List.mem_cons_of_mem _ hp))

theorem jsonEquiv_refl_nice_aux (n : Nat) : ∀ (j : Json), sizeOf j ≤ n →
    niceJson j = true → jsonEquiv j j = true := by
  induction n with
  | zero =>
    intro j hs
    exfalso
    cases j <;> simp at hs
  | succ n ih =>
    intro j hs hn
    cases j with
    | obj fs =>
      obtain ⟨hnd, hnf⟩ := niceJson_obj_parts hn
      rw [jsonEquiv_obj]
      simp only [Bool.and_eq_true]
      constructor
      · apply subEquiv_of_forall
        intro p hp
        refine ⟨p.2, lookupF_of_mem_nodup hnd (by
          obtain ⟨k, v⟩ := p
          exact hp), ?_⟩
        have hsz : sizeOf p.2 ≤ n := by
          have h1 : sizeOf p < sizeOf fs := List.sizeOf_lt_of_mem hp
          obtain ⟨k, v⟩ := p
          simp only [Prod.mk.sizeOf_spec] at h1
          simp only [Json.obj.sizeOf_spec] at hs
          show sizeOf v ≤ n
          omega
        exact ih p.2 hsz (niceFields_mem hnf p hp).2
      · rw [List.all_eq_true]
        intro p hp
        exact mem_map_fst_isSome (List.mem_map.mpr ⟨p, hp, rfl⟩)
    | arr xs => rw [niceJson] at hn; cases hn
    | null => simp [jsonEquiv, beqJ]
    | bool b => simp [jsonEquiv, beqJ]
    | num m => simp [jsonEquiv, beqJ]
    | str s => simp [jsonEquiv, beqJ]

theorem jsonEquiv_refl_nice {j : Json} (hn : niceJson j = true) :
    jsonEquiv j j = true :=
  jsonEquiv_refl_nice_aux (sizeOf j) j (Nat.le_refl _) hn

theorem applyOne_obj_single (C : List (String × Json)) (k : String) (op : POp)
    (v : Option Json) : applyOne (.obj C) [k] op v = finalOp (.obj C) k op v := rfl

theorem applyOne_obj_cons_obj {C sub : List (String × Json)} {k : String}
    (k2 : String) (rest : List String) (op : POp) (v : Option Json)
    (h : lookupF C k = some (.obj sub)) :
    applyOne (.obj C) (k :: k2 :: rest) op v =
      (applyOne (.obj sub) (k2 :: rest) op v).map (fun r => .obj (setKey C k r)) := by
  simp only [applyOne, h, truthy, if_true]

theorem finalOp_obj_result {C : List (String × Json)} {last : String} {op : POp}
    {v : Option Json} {u : Json} (h : finalOp (.obj C) last op v = some u) :
    ∃ D, u = .obj D := by
  cases op with
  | add =>
    cases v with
    | some w =>
      simp only [finalOp] at h
      exact ⟨_, ((Option.some.injEq _ _).mp h).symm⟩
    | none =>
      simp only [finalOp] at h
      exact ⟨_, ((Option.some.injEq _ _).mp h).symm⟩
  | remove =>
    simp only [finalOp] at h
    exact ⟨_, ((Option.some.injEq _ _).mp h).symm⟩
  | replace =>
    cases v with
    | some w =>
      simp only [finalOp] at h
      exact ⟨_, ((Option.some.injEq _ _).mp h).symm⟩
    | none =>
      simp only [finalOp] at h
      exact ⟨_, ((Option.some.injEq _ _).mp h).symm⟩

theorem applyOne_obj_result {C : List (String × Json)} : ∀ {parts : List String}
    {op : POp} {v : Option Json} {u : Json},
    applyOne (.obj C) parts op v = some u → ∃ D, u = .obj D := by
  intro parts op v u h
  match parts with
  | [] =>
    rw [applyOne] at h
    exact finalOp_obj_result h
  | [k] =>
    rw [applyOne] at h
    exact finalOp_obj_result h
  | k :: k2 :: rest =>
    simp only [applyOne] at h
    cases hl : lookupF C k with
    | none =>
      simp only [hl] at h
      rcases Option.map_eq_some'.mp h with ⟨r, _, rfl⟩
      exact ⟨_, rfl⟩
    | some e =>
      simp only [hl] at h
      by_cases ht : truthy e = true
      · rw [if_pos ht] at h
        rcases Option.map_eq_some'.mp h with ⟨r, _, rfl⟩
        exact ⟨_, rfl⟩
      · rw [if_neg ht] at h
        rcases Option.map_eq_some'.mp h with ⟨r, _, rfl⟩
        exact ⟨_, rfl⟩

theorem apFoldNone (l : List Patch) :
    List.foldl
      (fun acc p => acc.bind (fun t => applyOne t (pointerParts p.path) p.op p.value))
      none l = none := by
  induction l with
  | nil => rfl
  | cons x xs ih => rw [List.foldl_cons, Option.none_bind]; exact ih

theorem applyPatch_nil (t : Json) : applyPatch t [] = some t := rfl

theorem applyPatch_cons (t : Json) (p : Patch) (l : List Patch) :
    applyPatch t (p :: l) =
      (applyOne t (pointerParts p.path) p.op p.value).bind (fun u => applyPatch u l) := by
  rw [applyPatch, List.foldl_cons, Option.some_bind]
  cases hs : applyOne t (pointerParts p.path) p.op p.value with
  | none => rw [Option.none_bind]; exact apFoldNone l
  | some u => rw [Option.some_bind, applyPatch]

theorem applyPatch_append (t : Json) (l1 l2 : List Patch) :
    applyPatch t (l1 ++ l2) = (applyPatch t l1).bind (fun u => applyPatch u l2) := by
  rw [applyPatch, List.foldl_append]
  show List.foldl _ (applyPatch t l1) l2 = _
  cases h : applyPatch t l1 with
  | none => rw [Option.none_bind]; exact apFoldNone l2
  | some u => rw [Option.some_bind, applyPatch]

theorem applyPatch_obj_result {C : List (String × Json)} : ∀ {l : List Patch} {u : Json},
    applyPatch (.obj C) l = some u → ∃ D, u = .obj D := by
  intro l
  induction l generalizing C with
  | nil =>
    intro u h
    rw [applyPatch_nil] at h
    exact ⟨C, ((Option.some.injEq _ _).mp h).symm⟩
  | cons p ps ih =>
    intro u h
    rw [applyPatch_cons] at h
    cases ha : applyOne (.obj C) (pointerParts p.path) p.op p.value with
    | none => rw [ha, Option.none_bind] at h; cases h
    | some w =>
      rw [ha, Option.some_bind] at h
      obtain ⟨D, rfl⟩ := applyOne_obj_result ha
      exact ih h

theorem setKey_map_fst {β : Type} : ∀ {C : List (String × β)} {k : String} (w : β),
    hasKey C k = true → (setKey C k w).map Prod.fst = C.map Prod.fst := by
  intro C
  induction C with
  | nil => intro k w h; simp [hasKey, lookupF] at h
  | cons q rest ih =>
    intro k w h
    obtain ⟨k', v⟩ := q
    by_cases hk : k' = k
    · subst hk
      rw [setKey, if_pos rfl]
      simp
    · rw [setKey, if_neg hk, List.map_cons, List.map_cons]
      congr 1
      apply ih
      simp only [hasKey, lookupF, if_neg hk] at h
      exact h

theorem applyPatch_prefixed (k : String) : ∀ (patches : List Patch),
    (∀ p ∈ patches, pointerParts (ptrPrefixed k p).path = k :: pointerParts p.path ∧
      pointerParts p.path ≠ []) →
    ∀ (C sub r : List (String × Json)),
    lookupF C k = some (.obj sub) →
    applyPatch (.obj sub) patches = some (.obj r) →
    applyPatch (.obj C) (patches.map (ptrPrefixed k)) =
      some (.obj (setKey C k (.obj r))) := by
  intro patches
  induction patches with
  | nil =>
    intro _ C sub r hl hap
    rw [applyPatch_nil] at hap
    have hsr : sub = r := by
      injection hap with h2
      injection h2
    subst hsr
    rw [List.map_nil, applyPatch_nil, setKey_lookup_self hl]
  | cons p ps ih =>
    intro hptr C sub r hl hap
    obtain ⟨hp1, hp2⟩ := hptr p (List.mem_cons_self _ _)
    rw [applyPatch_cons] at hap
    cases ha : applyOne (.obj sub) (pointerParts p.path) p.op p.value with
    | none => rw [ha, Option.none_bind] at hap; cases hap
    | some u =>
      rw [ha, Option.some_bind] at hap
      obtain ⟨sub2, rfl⟩ := applyOne_obj_result ha
      rw [List.map_cons, applyPatch_cons]
      have hop : (ptrPrefixed k p).op = p.op := rfl
      have hval : (ptrPrefixed k p).value = p.value := rfl
      rw [hop, hval, hp1]
      cases hparts : pointerParts p.path with
      | nil => exact absurd hparts hp2
      | cons q qs =>
        rw [hparts] at ha
        rw [applyOne_obj_cons_obj q qs p.op p.value hl, ha]
        rw [Option.map_some', Option.some_bind]
        rw [ih (fun x hx => hptr x (List.mem_cons_of_mem _ hx))
          (setKey C k (.obj sub2)) sub2 r (lookupF_setKey_self C k (.obj sub2)) hap]
        rw [setKey_setKey]

theorem map_congr_mem {α β : Type} {f g : α → β} : ∀ (l : List α),
    (∀ a ∈ l, f a = g a) → l.map f = l.map g := by
  intro l
  induction l with
  | nil => intro _; rfl
  | cons x xs ih =>
    intro h
    rw [List.map_cons, List.map_cons, h x (List.mem_cons_self _ _),
      ih (fun a ha => h a (List.mem_cons_of_mem _ ha))]

theorem flatMap_congr_mem {α β : Type} {f g : α → List β} : ∀ (l : List α),
    (∀ a ∈ l, f a = g a) → l.flatMap f = l.flatMap g := by
  intro l
  induction l with
  | nil => intro _; rfl
  | cons x xs ih =>
    intro h
    rw [List.flatMap_cons, List.flatMap_cons, h x (List.mem_cons_self _ _),
      ih (fun a ha => h a (List.mem_cons_of_mem _ ha))]

theorem map_flatMap_own {α β γ : Type} (g : β → γ) (f : α → List β) :
    ∀ (l : List α), (l.flatMap f).map g = l.flatMap (fun a => (f a).map g) := by
  intro l
  induction l with
  | nil => rfl
  | cons x xs ih => simp only [List.flatMap_cons, List.map_append, ih]

theorem joinSep_ne_empty : ∀ {ch : List String}, ch ≠ [] →
    (∀ x ∈ ch, niceKey x = true) → joinSep "." ch ≠ "" := by
  intro ch hne hnice
  cases ch with
  | nil => exact absurd rfl hne
  | cons k rest =>
    cases rest with
    | nil =>
      rw [joinSep]
      exact (niceKey_parts (hnice k (List.mem_cons_self _ _))).1
    | cons k2 ks =>
      rw [joinSep_cons "." k (k2 :: ks) (by simp)]
      exact append_ne_empty _ _ (append_ne_empty _ _
        (niceKey_parts (hnice k (List.mem_cons_self _ _))).1)

theorem generatePatch_eq_map (l : List Change) : generatePatch l = l.map patchOf := rfl

theorem patchOf_path (c : Change) :
    (patchOf c).path = if c.path ≠ "" then "/" ++ replaceDots c.path else "" := by
  obtain ⟨kind, path, lhs, rhs⟩ := c
  cases kind <;> rfl

theorem patchOf_rebase {k : String} {c : Change} (hk : niceKey k = true)
    (hpne : c.path ≠ "") :
    patchOf (rebase k c) = ptrPrefixed k (patchOf c) := by
  have hkne : k ≠ "" := (niceKey_parts hk).1
  have hdp : dotPath k c.path = k ++ "." ++ c.path := dotPath_ne k c.path hkne
  have hdpne : dotPath k c.path ≠ "" := by
    rw [hdp]
    exact append_ne_empty _ _ (append_ne_empty _ _ hkne)
  have hrd : "/" ++ replaceDots (dotPath k c.path) =
      "/" ++ k ++ ("/" ++ replaceDots c.path) := by
    rw [hdp, replaceDots_append, replaceDots_append, replaceDots_dot,
      replaceDots_nodot (niceKey_parts hk).2.1]
    apply string_ext
    simp [data_append]
  obtain ⟨kind, path, lhs, rhs⟩ := c
  cases kind <;>
  · simp only [patchOf, rebase, ptrPrefixed]
    rw [if_pos hdpne, if_pos hpne, hrd]

theorem patchOf_pointer {c : Change} {ch : List String} (hne : ch ≠ [])
    (hnice : ∀ x ∈ ch, niceKey x = true) (hpath : c.path = joinSep "." ch) :
    pointerParts (patchOf c).path = ch := by
  have hpne : c.path ≠ "" := by rw [hpath]; exact joinSep_ne_empty hne hnice
  have hp : (patchOf c).path = "/" ++ replaceDots c.path := by
    rw [patchOf_path, if_pos hpne]
  rw [hp, hpath]
  exact pointerParts_chain ch hne hnice

theorem ptrPrefixed_pointer {k : String} (hk : niceKey k = true) {p : Patch}
    {ch : List String} (hne : ch ≠ []) (hnice : ∀ x ∈ ch, niceKey x = true)
    (hp : p.path = "/" ++ replaceDots (joinSep "." ch)) :
    pointerParts (ptrPrefixed k p).path = k :: pointerParts p.path := by
  have h1 : pointerParts p.path = ch := by
    rw [hp]
    exact pointerParts_chain ch hne hnice
  have h2 : (ptrPrefixed k p).path = "/" ++ replaceDots (joinSep "." (k :: ch)) := by
    show "/" ++ k ++ p.path = _
    rw [hp, joinSep_cons "." k ch hne, replaceDots_append, replaceDots_append,
      replaceDots_dot, replaceDots_nodot (niceKey_parts hk).2.1]
    apply string_ext
    simp [data_append]
  rw [h2, h1]
  exact pointerParts_chain (k :: ch) (by simp) (by
    intro x hx
    rcases List.mem_cons.mp hx with rfl | hx2
    · exact hk
    · exact hnice x hx2)

theorem genPatch_pointer_hyp (k : String) (hk : niceKey k = true) {l : List Change}
    (hch : ∀ c ∈ l, ∃ ch, ch ≠ [] ∧ (∀ x ∈ ch, niceKey x = true) ∧
      c.path = joinSep "." ch) :
    ∀ p ∈ generatePatch l,
      pointerParts (ptrPrefixed k p).path = k :: pointerParts p.path ∧
        pointerParts p.path ≠ [] := by
  intro p hp
  rw [generatePatch_eq_map] at hp
  rcases List.mem_map.mp hp with ⟨c, hc, rfl⟩
  obtain ⟨ch, hne, hnice, hpath⟩ := hch c hc
  have hpne : c.path ≠ "" := by rw [hpath]; exact joinSep_ne_empty hne hnice
  have hpp : (patchOf c).path = "/" ++ replaceDots (joinSep "." ch) := by
    rw [patchOf_path, if_pos hpne, hpath]
  constructor
  · exact ptrPrefixed_pointer hk hne hnice hpp
  · rw [patchOf_pointer hne hnice hpath]
    exact hne

theorem generatePatch_rebase (k : String) (hk : niceKey k = true) (l : List Change)
    (hch : ∀ c ∈ l, ∃ ch, ch ≠ [] ∧ (∀ x ∈ ch, niceKey x = true) ∧
      c.path = joinSep "." ch) :
    generatePatch (l.map (rebase k)) = (generatePatch l).map (ptrPrefixed k) := by
  rw [generatePatch_eq_map, generatePatch_eq_map, List.map_map, List.map_map]
  apply map_congr_mem
  intro c hc
  obtain ⟨ch, hne, hnice, hpath⟩ := hch c hc
  have hpne : c.path ≠ "" := by rw [hpath]; exact joinSep_ne_empty hne hnice
  show patchOf (rebase k c) = ptrPrefixed k (patchOf c)
  exact patchOf_rebase hk hpne

theorem deepCompare_obj (fs gs : List (String × Json)) (bp : String) :
    deepCompare (.obj fs) (.obj gs) bp =
      (fs.filter (fun p => !(hasKey gs p.1))).map
        (fun p => ⟨.D, dotPath bp p.1, some p.2, none⟩)
      ++ (gs.filter (fun p => !(hasKey fs p.1))).map
        (fun p => ⟨.N, dotPath bp p.1, none, some p.2⟩)
      ++ ((fs.map Prod.fst).filter (fun k => hasKey gs k)).flatMap
        (specCommonRecs fs gs bp) := by
  rw [deepCompare.eq_def]
  simp only [jsTypeof, bne_self_eq_false, if_false, Bool.false_eq_true, isNull,
    Bool.not_false, beq_self_eq_true, Bool.and_self, if_true, entriesOf]
  rw [deepCompareCommon_obj fs gs _ bp]
  intro k hk
  rcases List.mem_filter.mp hk with ⟨hmem, hgs⟩
  exact ⟨mem_map_fst_isSome hmem, by simpa [hasKey] using hgs⟩

theorem specCommonRecs_eq (fs gs : List (String × Json)) (bp k : String)
    {v1 v2 : Json} (h1 : lookupF fs k = some v1) (h2 : lookupF gs k = some v2) :
    specCommonRecs fs gs bp k =
      (if (jsTypeof v1 == "object") && (jsTypeof v2 == "object")
          && !(isNull v1) && !(isNull v2) then
        deepCompare v1 v2 (dotPath bp k)
      else if !(beqJ v1 v2) then
        [⟨.E, dotPath bp k, some v1, some v2⟩]
      else []) := by
  rw [specCommonRecs]
  simp only [h1, h2]

theorem deepCompare_rebase_aux (n : Nat) : ∀ (fs gs : List (String × Json)),
    sizeOf fs + sizeOf gs ≤ n →
    niceJson (.obj fs) = true → niceJson (.obj gs) = true →
    (∀ bp, deepCompare (.obj fs) (.obj gs) bp =
      (deepCompare (.obj fs) (.obj gs) "").map (rebase bp)) ∧
    (∀ c ∈ deepCompare (.obj fs) (.obj gs) "", ∃ ch, ch ≠ [] ∧
      (∀ x ∈ ch, niceKey x = true) ∧ c.path = joinSep "." ch) := by
  induction n with
  | zero =>
    intro fs gs hs _ _
    exfalso
    have h1 : 0 < sizeOf fs := by cases fs <;> simp
    omega
  | succ n ih =>
    intro fs gs hs hnfs hngs
    have hcommon : ∀ (k : String) (v1 v2 : Json), lookupF fs k = some v1 →
        lookupF gs k = some v2 →
        (∀ bp, specCommonRecs fs gs bp k = (specCommonRecs fs gs "" k).map (rebase bp)) ∧
        (∀ c ∈ specCommonRecs fs gs "" k, ∃ ch, ch ≠ [] ∧
          (∀ x ∈ ch, niceKey x = true) ∧ c.path = joinSep "." ch) := by
      intro k v1 v2 hv1 hv2
      obtain ⟨hk1, hn1⟩ := nice_lookup hnfs hv1
      obtain ⟨hk2b, hn2⟩ := nice_lookup hngs hv2
      by_cases hg : ((jsTypeof v1 == "object") && (jsTypeof v2 == "object")
          && !(isNull v1) && !(isNull v2)) = true
      · have hgp := hg
        simp only [Bool.and_eq_true, beq_iff_eq, Bool.not_eq_true'] at hgp
        obtain ⟨⟨⟨ht1, ht2⟩, hz1⟩, hz2⟩ := hgp
        obtain ⟨cs1, rfl⟩ := obj_of_nice hn1 ht1 hz1
        obtain ⟨cs2, rfl⟩ := obj_of_nice hn2 ht2 hz2
        have hs1 : sizeOf (Json.obj cs1) < sizeOf fs := sizeOf_lookupF_lt hv1
        have hs2 : sizeOf (Json.obj cs2) < sizeOf gs := sizeOf_lookupF_lt hv2
        have hsz : sizeOf cs1 + sizeOf cs2 ≤ n := by
          simp only [Json.obj.sizeOf_spec] at hs1 hs2
          omega
        obtain ⟨ihA, ihB⟩ := ih cs1 cs2 hsz hn1 hn2
        have hkne : k ≠ "" := (niceKey_parts hk1).1
        constructor
        · intro bp
          rw [specCommonRecs_eq fs gs bp k hv1 hv2, specCommonRecs_eq fs gs "" k hv1 hv2]
          rw [if_pos hg, if_pos hg]
          rw [dotPath_empty, ihA (dotPath bp k), ihA k, List.map_map]
          apply map_congr_mem
          intro c hc
          obtain ⟨ch, hne, hnice, hpath⟩ := ihB c hc
          have hpne : c.path ≠ "" := by rw [hpath]; exact joinSep_ne_empty hne hnice
          show rebase (dotPath bp k) c = rebase bp (rebase k c)
          simp only [rebase]
          rw [dotPath_assoc bp k c.path hkne hpne]
        · intro c hc
          rw [specCommonRecs_eq fs gs "" k hv1 hv2, if_pos hg, dotPath_empty,
            ihA k] at hc
          rcases List.mem_map.mp hc with ⟨c2, hc2, rfl⟩
          obtain ⟨ch, hne, hnice, hpath⟩ := ihB c2 hc2
          refine ⟨k :: ch, by simp, ?_, ?_⟩
          · intro x hx
            rcases List.mem_cons.mp hx with rfl | hx2
            · exact hk1
            · exact hnice x hx2
          · show dotPath k c2.path = joinSep "." (k :: ch)
            rw [dotPath_ne k c2.path hkne, hpath, joinSep_cons "." k ch hne]
      · constructor
        · intro bp
          rw [specCommonRecs_eq fs gs bp k hv1 hv2, specCommonRecs_eq fs gs "" k hv1 hv2]
          rw [if_neg hg, if_neg hg]
          by_cases hb : (!(beqJ v1 v2)) = true
          · rw [if_pos hb, if_pos hb, dotPath_empty]
            simp only [List.map_cons, List.map_nil, rebase]
          · rw [if_neg hb, if_neg hb]
            rfl
        · intro c hc
          rw [specCommonRecs_eq fs gs "" k hv1 hv2, if_neg hg] at hc
          by_cases hb : (!(beqJ v1 v2)) = true
          · rw [if_pos hb] at hc
            rcases List.mem_singleton.mp hc with rfl
            refine ⟨[k], by simp, by simpa using hk1, ?_⟩
            show dotPath "" k = joinSep "." [k]
            rw [dotPath_empty, joinSep]
          · rw [if_neg hb] at hc
            simp at hc
    constructor
    · intro bp
      rw [deepCompare_obj fs gs bp, deepCompare_obj fs gs "", List.map_append,
        List.map_append]
      congr 1
      · congr 1
        · rw [List.map_map]
          apply map_congr_mem
          intro p hp
          show (⟨.D, dotPath bp p.1, some p.2, none⟩ : Change) =
            rebase bp ⟨.D, dotPath "" p.1, some p.2, none⟩
          simp only [rebase]
          rw [dotPath_empty]
        · rw [List.map_map]
          apply map_congr_mem
          intro p hp
          show (⟨.N, dotPath bp p.1, none, some p.2⟩ : Change) =
            rebase bp ⟨.N, dotPath "" p.1, none, some p.2⟩
          simp only [rebase]
          rw [dotPath_empty]
      · rw [map_flatMap_own]
        apply flatMap_congr_mem
        intro k hk
        rcases List.mem_filter.mp hk with ⟨hmem, hgk⟩
        obtain ⟨v1, hv1⟩ := Option.isSome_iff_exists.mp (mem_map_fst_isSome hmem)
        obtain ⟨v2, hv2⟩ := Option.isSome_iff_exists.mp (by simpa [hasKey] using hgk)
        exact (hcommon k v1 v2 hv1 hv2).1 bp
    · intro c hc
      rw [deepCompare_obj fs gs ""] at hc
      rcases List.mem_append.mp hc with hc1 | hc3
      · rcases List.mem_append.mp hc1 with hcr | hca
        · rcases List.mem_map.mp hcr with ⟨p, hp, rfl⟩
          have hpnice := niceFields_mem (niceJson_obj_parts hnfs).2 p
            (List.mem_filter.mp hp).1
          refine ⟨[p.1], by simp, by simpa using hpnice.1, ?_⟩
          show dotPath "" p.1 = joinSep "." [p.1]
          rw [dotPath_empty, joinSep]
        · rcases List.mem_map.mp hca with ⟨p, hp, rfl⟩
          have hpnice := niceFields_mem (niceJson_obj_parts hngs).2 p
            (List.mem_filter.mp hp).1
          refine ⟨[p.1], by simp, by simpa using hpnice.1, ?_⟩
          show dotPath "" p.1 = joinSep "." [p.1]
          rw [dotPath_empty, joinSep]
      · rcases List.mem_flatMap.mp hc3 with ⟨k, hk, hck⟩
        rcases List.mem_filter.mp hk with ⟨hmem, hgk⟩
        obtain ⟨v1, hv1⟩ := Option.isSome_iff_exists.mp (mem_map_fst_isSome hmem)
        obtain ⟨v2, hv2⟩ := Option.isSome_iff_exists.mp (by simpa [hasKey] using hgk)
        exact (hcommon k v1 v2 hv1 hv2).2 c hck

theorem filter_congr_mem {α : Type} {f g : α → Bool} : ∀ (l : List α),
    (∀ a ∈ l, f a = g a) → l.filter f = l.filter g := by
  intro l
  induction l with
  | nil => intro _; rfl
  | cons x xs ih =>
    intro h
    rw [List.filter_cons, List.filter_cons, h x (List.mem_cons_self _ _),
      ih (fun a ha => h a (List.mem_cons_of_mem _ ha))]

theorem genPatch_removed (fs gs : List (String × Json)) (hnf : niceFields fs = true) :
    generatePatch ((fs.filter (fun p => !(hasKey gs p.1))).map
        (fun p => ⟨.D, dotPath "" p.1, some p.2, none⟩)) =
      (fs.filter (fun p => !(hasKey gs p.1))).map
        (fun p => Patch.mk .remove ("/" ++ p.1) none) := by
  rw [generatePatch_eq_map, List.map_map]
  apply map_congr_mem
  intro p hp
  have hpk := (niceFields_mem hnf p (List.mem_filter.mp hp).1).1
  show patchOf ⟨.D, dotPath "" p.1, some p.2, none⟩ = _
  have hne : dotPath "" p.1 ≠ "" := by
    rw [dotPath_empty]
    exact (niceKey_parts hpk).1
  simp only [patchOf]
  rw [if_pos hne, dotPath_empty, replaceDots_nodot (niceKey_parts hpk).2.1]

theorem genPatch_added (fs gs : List (String × Json)) (hng : niceFields gs = true) :
    generatePatch ((gs.filter (fun p => !(hasKey fs p.1))).map
        (fun p => ⟨.N, dotPath "" p.1, none, some p.2⟩)) =
      (gs.filter (fun p => !(hasKey fs p.1))).map
        (fun p => Patch.mk .add ("/" ++ p.1) (some p.2)) := by
  rw [generatePatch_eq_map, List.map_map]
  apply map_congr_mem
  intro p hp
  have hpk := (niceFields_mem hng p (List.mem_filter.mp hp).1).1
  show patchOf ⟨.N, dotPath "" p.1, none, some p.2⟩ = _
  have hne : dotPath "" p.1 ≠ "" := by
    rw [dotPath_empty]
    exact (niceKey_parts hpk).1
  simp only [patchOf]
  rw [if_pos hne, dotPath_empty, replaceDots_nodot (niceKey_parts hpk).2.1]

theorem finalOp_obj_remove (C : List (String × Json)) (k : String) (v : Option Json) :
    finalOp (.obj C) k .remove v = some (.obj (eraseKey C k)) := rfl

theorem finalOp_obj_add_some (C : List (String × Json)) (k : String) (w : Json) :
    finalOp (.obj C) k .add (some w) = some (.obj (setKey C k w)) := rfl

theorem finalOp_obj_replace_some (C : List (String × Json)) (k : String) (w : Json) :
    finalOp (.obj C) k .replace (some w) = some (.obj (setKey C k w)) := rfl

theorem applyPatch_removes : ∀ (l C : List (String × Json)),
    (∀ p ∈ l, niceKey p.1 = true) →
    applyPatch (.obj C) (l.map (fun p => Patch.mk .remove ("/" ++ p.1) none)) =
      some (.obj (l.foldl (fun cur p => eraseKey cur p.1) C)) := by
  intro l
  induction l with
  | nil => intro C _; rw [List.map_nil, applyPatch_nil, List.foldl_nil]
  | cons q rest ih =>
    intro C h
    rw [List.map_cons, applyPatch_cons]
    show (applyOne (.obj C) (pointerParts ("/" ++ q.1)) .remove none).bind _ = _
    rw [pointerParts_single q.1 (h q (List.mem_cons_self _ _)), applyOne_obj_single]
    rw [finalOp_obj_remove, Option.some_bind, List.foldl_cons]
    exact ih (eraseKey C q.1) (fun p hp => h p (List.mem_cons_of_mem _ hp))

theorem applyPatch_adds : ∀ (l C : List (String × Json)),
    (∀ p ∈ l, niceKey p.1 = true) →
    applyPatch (.obj C) (l.map (fun p => Patch.mk .add ("/" ++ p.1) (some p.2))) =
      some (.obj (l.foldl (fun cur p => setKey cur p.1 p.2) C)) := by
  intro l
  induction l with
  | nil => intro C _; rw [List.map_nil, applyPatch_nil, List.foldl_nil]
  | cons q rest ih =>
    intro C h
    rw [List.map_cons, applyPatch_cons]
    show (applyOne (.obj C) (pointerParts ("/" ++ q.1)) .add (some q.2)).bind _ = _
    rw [pointerParts_single q.1 (h q (List.mem_cons_self _ _)), applyOne_obj_single]
    rw [finalOp_obj_add_some, Option.some_bind, List.foldl_cons]
    exact ih (setKey C q.1 q.2) (fun p hp => h p (List.mem_cons_of_mem _ hp))

theorem eraseKey_eq_filter {β : Type} : ∀ {C : List (String × β)} (k : String),
    nodupKeys C = true → eraseKey C k = C.filter (fun p => p.1 != k) := by
  intro C
  induction C with
  | nil => intro k _; rfl
  | cons q rest ih =>
    intro k hnd
    obtain ⟨k', w⟩ := q
    simp only [nodupKeys, Bool.and_eq_true] at hnd
    rw [eraseKey, List.filter_cons]
    by_cases hk : k' = k
    · subst hk
      rw [if_pos rfl]
      simp only [bne_self_eq_false, Bool.false_eq_true, if_false]
      symm
      rw [List.filter_eq_self]
      intro p hp
      simp only [bne_iff_ne, ne_eq]
      intro hc
      have hsome : (lookupF rest k').isSome := mem_map_fst_isSome
        (List.mem_map.mpr ⟨p, hp, hc⟩)
      have h1 := hnd.1
      simp only [hasKey, Bool.not_eq_true'] at h1
      rw [h1] at hsome
      simp at hsome
    · rw [if_neg hk]
      have hb : ((k', w).1 != k) = true := by simpa using hk
      simp only [hb, if_true]
      rw [ih k hnd.2]

theorem foldl_erase_filter {β : Type} : ∀ (l : List (String × β))
    (C : List (String × β)), nodupKeys C = true →
    l.foldl (fun cur p => eraseKey cur p.1) C =
      C.filter (fun p => !(l.any (fun q => p.1 == q.1))) := by
  intro l
  induction l with
  | nil =>
    intro C _
    rw [List.foldl_nil]
    symm
    rw [List.filter_eq_self]
    intro p _
    simp
  | cons q rest ih =>
    intro C hnd
    rw [List.foldl_cons]
    have hnd2 : nodupKeys (eraseKey C q.1) = true := by
      rw [eraseKey_eq_filter q.1 hnd]
      exact nodupKeys_filter _ hnd
    rw [ih (eraseKey C q.1) hnd2, eraseKey_eq_filter q.1 hnd, List.filter_filter]
    apply filter_congr_mem
    intro p _
    rw [List.any_cons]
    cases hpq : (p.1 == q.1) with
    | true => simp [bne, hpq]
    | false => simp [bne, hpq]

theorem stage1_result (fs gs : List (String × Json)) (hnd : nodupKeys fs = true) :
    (fs.filter (fun p => !(hasKey gs p.1))).foldl
      (fun cur p => eraseKey cur p.1) fs = fs.filter (fun p => hasKey gs p.1) := by
  rw [foldl_erase_filter _ fs hnd]
  apply filter_congr_mem
  intro p hp
  by_cases hg : hasKey gs p.1 = true
  · rw [hg]
    simp only [Bool.not_eq_true']
    rw [List.any_eq_false]
    intro q hq
    rcases List.mem_filter.mp hq with ⟨_, hq2⟩
    have hne2 : p.1 ≠ q.1 := by
      intro hc
      rw [← hc] at hq2
      rw [hg] at hq2
      simp at hq2
    simp [hne2]
  · have hgf : hasKey gs p.1 = false := by
      cases h' : hasKey gs p.1
      · rfl
      · exact absurd h' hg
    rw [hgf]
    have hany : (fs.filter (fun p => !(hasKey gs p.1))).any
        (fun q => p.1 == q.1) = true := by
      rw [List.any_eq_true]
      exact ⟨p, List.mem_filter.mpr ⟨hp, by rw [hgf]; rfl⟩, by simp⟩
    rw [hany]
    rfl

theorem stage3 (fs gs : List (String × Json)) (hnfs : niceJson (.obj fs) = true)
    (hngs : niceJson (.obj gs) = true)
    (IH : ∀ cs1 cs2 : List (String × Json),
      sizeOf cs1 + sizeOf cs2 < sizeOf fs + sizeOf gs →
      niceJson (.obj cs1) = true → niceJson (.obj cs2) = true →
      ∃ r, applyPatch (.obj cs1)
          (generatePatch (deepCompare (.obj cs1) (.obj cs2) "")) =
        some (.obj r) ∧ jsonEquiv (.obj r) (.obj cs2) = true) :
    ∀ (ks : List String) (C : List (String × Json)),
    ks.Nodup →
    (∀ k ∈ ks, lookupF C k = lookupF fs k) →
    (∀ k ∈ ks, (lookupF fs k).isSome ∧ (lookupF gs k).isSome) →
    nodupKeys C = true →
    ∃ D, applyPatch (.obj C)
        (ks.flatMap (fun k => generatePatch (specCommonRecs fs gs "" k))) =
      some (.obj D) ∧
      nodupKeys D = true ∧
      D.map Prod.fst = C.map Prod.fst ∧
      (∀ x, x ∉ ks → lookupF D x = lookupF C x) ∧
      (∀ k ∈ ks, ∃ w v2, lookupF D k = some w ∧ lookupF gs k = some v2 ∧
        jsonEquiv w v2 = true) := by
  intro ks
  induction ks with
  | nil =>
    intro C _ _ _ hndC
    refine ⟨C, ?_, hndC, rfl, fun x _ => rfl, fun k hk => absurd hk (by simp)⟩
    rw [List.flatMap_nil, applyPatch_nil]
  | cons k ks ih =>
    intro C hnodup hinv hsome hndC
    obtain ⟨hfk, hgk⟩ := hsome k (List.mem_cons_self _ _)
    obtain ⟨v1, hv1⟩ := Option.isSome_iff_exists.mp hfk
    obtain ⟨v2, hv2⟩ := Option.isSome_iff_exists.mp hgk
    obtain ⟨hk1, hn1⟩ := nice_lookup hnfs hv1
    obtain ⟨hk2n, hn2⟩ := nice_lookup hngs hv2
    have hCk : lookupF C k = some v1 := by
      rw [hinv k (List.mem_cons_self _ _)]
      exact hv1
    rw [List.nodup_cons] at hnodup
    rw [List.flatMap_cons, applyPatch_append]
    have hstep : ∃ w, applyPatch (.obj C) (generatePatch (specCommonRecs fs gs "" k)) =
        some (.obj (setKey C k w)) ∧ jsonEquiv w v2 = true := by
      by_cases hg : ((jsTypeof v1 == "object") && (jsTypeof v2 == "object")
          && !(isNull v1) && !(isNull v2)) = true
      · have hgp := hg
        simp only [Bool.and_eq_true, beq_iff_eq, Bool.not_eq_true'] at hgp
        obtain ⟨⟨⟨ht1, ht2⟩, hz1⟩, hz2⟩ := hgp
        obtain ⟨cs1, rfl⟩ := obj_of_nice hn1 ht1 hz1
        obtain ⟨cs2, rfl⟩ := obj_of_nice hn2 ht2 hz2
        have hs1 : sizeOf (Json.obj cs1) < sizeOf fs := sizeOf_lookupF_lt hv1
        have hs2 : sizeOf (Json.obj cs2) < sizeOf gs := sizeOf_lookupF_lt hv2
        have hsz : sizeOf cs1 + sizeOf cs2 < sizeOf fs + sizeOf gs := by
          simp only [Json.obj.sizeOf_spec] at hs1 hs2
          omega
        obtain ⟨r, hr, hreq⟩ := IH cs1 cs2 hsz hn1 hn2
        obtain ⟨ihA, ihB⟩ := deepCompare_rebase_aux (sizeOf cs1 + sizeOf cs2) cs1 cs2
          (Nat.le_refl _) hn1 hn2
        rw [specCommonRecs_eq fs gs "" k hv1 hv2, if_pos hg, dotPath_empty, ihA k]
        rw [generatePatch_rebase k hk1 _ ihB]
        refine ⟨.obj r, ?_, hreq⟩
        exact applyPatch_prefixed k _ (genPatch_pointer_hyp k hk1 ihB) C cs1 r hCk hr
      · rw [specCommonRecs_eq fs gs "" k hv1 hv2, if_neg hg]
        by_cases hb : (!(beqJ v1 v2)) = true
        · rw [if_pos hb]
          refine ⟨v2, ?_, jsonEquiv_refl_nice hn2⟩
          rw [generatePatch_eq_map, List.map_cons, List.map_nil, applyPatch_cons]
          have hpOf : patchOf ⟨.E, dotPath "" k, some v1, some v2⟩ =
              Patch.mk .replace ("/" ++ k) (some v2) := by
            simp only [patchOf]
            have hne : dotPath "" k ≠ "" := by
              rw [dotPath_empty]
              exact (niceKey_parts hk1).1
            rw [if_pos hne, dotPath_empty, replaceDots_nodot (niceKey_parts hk1).2.1]
          rw [hpOf]
          show (applyOne (.obj C) (pointerParts ("/" ++ k)) .replace (some v2)).bind _ = _
          rw [pointerParts_single k hk1, applyOne_obj_single, finalOp_obj_replace_some,
            Option.some_bind, applyPatch_nil]
        · rw [if_neg hb]
          refine ⟨v1, ?_, ?_⟩
          · rw [generatePatch_eq_map, List.map_nil, applyPatch_nil,
              setKey_lookup_self hCk]
          · have hbeq : beqJ v1 v2 = true := by
              cases hbb : beqJ v1 v2
              · rw [hbb] at hb
                simp at hb
              · rfl
            rw [beqJ_eq hbeq]
            exact jsonEquiv_refl_nice hn2
    obtain ⟨w, hw, hweq⟩ := hstep
    rw [hw, Option.some_bind]
    have hC'nd : nodupKeys (setKey C k w) = true := nodup_setKey C k w hndC
    have hC'inv : ∀ k2 ∈ ks, lookupF (setKey C k w) k2 = lookupF fs k2 := by
      intro k2 hk2
      have hne : k2 ≠ k := fun hc => hnodup.1 (hc ▸ hk2)
      rw [lookupF_setKey_ne C k k2 w hne]
      exact hinv k2 (List.mem_cons_of_mem _ hk2)
    obtain ⟨D, hD, hDnd, hDkeys, hDout, hDin⟩ := ih (setKey C k w) hnodup.2 hC'inv
      (fun k2 hk2 => hsome k2 (List.mem_cons_of_mem _ hk2)) hC'nd
    refine ⟨D, hD, hDnd, ?_, ?_, ?_⟩
    · rw [hDkeys]
      exact setKey_map_fst w (by rw [hasKey, hCk]; rfl)
    · intro x hx
      have hx1 : x ≠ k := fun hc => hx (by rw [hc]; exact List.mem_cons_self _ _)
      have hx2 : x ∉ ks := fun hc => hx (List.mem_cons_of_mem _ hc)
      rw [hDout x hx2]
      exact lookupF_setKey_ne C k x w hx1
    · intro k2 hk2
      rcases List.mem_cons.mp hk2 with rfl | hk2'
      · refine ⟨w, v2, ?_, hv2, hweq⟩
        rw [hDout k2 hnodup.1]
        exact lookupF_setKey_self C k2 w
      · exact hDin k2 hk2'

theorem generatePatch_append (l1 l2 : List Change) :
    generatePatch (l1 ++ l2) = generatePatch l1 ++ generatePatch l2 := by
  rw [generatePatch_eq_map, generatePatch_eq_map, generatePatch_eq_map, List.map_append]

theorem generatePatch_flatMap {α : Type} (F : α → List Change) (l : List α) :
    generatePatch (l.flatMap F) = l.flatMap (fun a => generatePatch (F a)) := by
  rw [generatePatch_eq_map, map_flatMap_own]
  apply flatMap_congr_mem
  intro a _
  rw [generatePatch_eq_map]

theorem diff_patch_aux (n : Nat) : ∀ (fs gs : List (String × Json)),
    sizeOf fs + sizeOf gs ≤ n →
    niceJson (.obj fs) = true → niceJson (.obj gs) = true →
    ∃ r, applyPatch (.obj fs) (generatePatch (deepCompare (.obj fs) (.obj gs) "")) =
      some (.obj r) ∧ jsonEquiv (.obj r) (.obj gs) = true := by
  induction n with
  | zero =>
    intro fs gs hs _ _
    exfalso
    have h1 : 0 < sizeOf fs := by cases fs <;> simp
    omega
  | succ n ih =>
    intro fs gs hs hnfs hngs
    obtain ⟨hndf, hnff⟩ := niceJson_obj_parts hnfs
    obtain ⟨hndg, hnfg⟩ := niceJson_obj_parts hngs
    have hnice_rem : ∀ p ∈ fs.filter (fun p => !(hasKey gs p.1)), niceKey p.1 = true :=
      fun p hp => (niceFields_mem hnff p (List.mem_filter.mp hp).1).1
    have hnice_add : ∀ p ∈ gs.filter (fun p => !(hasKey fs p.1)), niceKey p.1 = true :=
      fun p hp => (niceFields_mem hnfg p (List.mem_filter.mp hp).1).1
    have hstage1 : applyPatch (.obj fs)
        (generatePatch ((fs.filter (fun p => !(hasKey gs p.1))).map
          (fun p => ⟨.D, dotPath "" p.1, some p.2, none⟩))) =
        some (.obj (fs.filter (fun p => hasKey gs p.1))) := by
      rw [genPatch_removed fs gs hnff, applyPatch_removes _ fs hnice_rem,
        stage1_result fs gs hndf]
    have hndC1 : nodupKeys (fs.filter (fun p => hasKey gs p.1)) = true :=
      nodupKeys_filter _ hndf
    have hnd_adds : nodupKeys (gs.filter (fun p => !(hasKey fs p.1))) = true :=
      nodupKeys_filter _ hndg
    have hfresh : ∀ p ∈ gs.filter (fun p => !(hasKey fs p.1)),
        hasKey (fs.filter (fun p => hasKey gs p.1)) p.1 = false := by
      intro p hp
      cases hc : hasKey (fs.filter (fun p => hasKey gs p.1)) p.1
      · rfl
      · exfalso
        have h1 := hasKey_filter_imp hc
        have h2 := (List.mem_filter.mp hp).2
        rw [h1] at h2
        simp at h2
    have hstage2 : applyPatch (.obj (fs.filter (fun p => hasKey gs p.1)))
        (generatePatch ((gs.filter (fun p => !(hasKey fs p.1))).map
          (fun p => ⟨.N, dotPath "" p.1, none, some p.2⟩))) =
        some (.obj (fs.filter (fun p => hasKey gs p.1) ++
          gs.filter (fun p => !(hasKey fs p.1)))) := by
      rw [genPatch_added fs gs hnfg, applyPatch_adds _ _ hnice_add,
        foldSetKey_fresh _ _ hnd_adds hfresh]
    have hndC2 : nodupKeys (fs.filter (fun p => hasKey gs p.1) ++
        gs.filter (fun p => !(hasKey fs p.1))) = true :=
      nodupKeys_append hndC1 hnd_adds hfresh
    have hksnd : ((fs.map Prod.fst).filter (fun k => hasKey gs k)).Nodup :=
      (nodup_keys_Nodup hndf).filter _
    have hinv : ∀ k ∈ (fs.map Prod.fst).filter (fun k => hasKey gs k),
        lookupF (fs.filter (fun p => hasKey gs p.1) ++
          gs.filter (fun p => !(hasKey fs p.1))) k = lookupF fs k := by
      intro k hk
      rcases List.mem_filter.mp hk with ⟨hmem, hgk⟩
      obtain ⟨v1, hv1⟩ := Option.isSome_iff_exists.mp (mem_map_fst_isSome hmem)
      have hmem1 : (k, v1) ∈ fs.filter (fun p => hasKey gs p.1) :=
        List.mem_filter.mpr ⟨lookupF_mem hv1, by simpa using hgk⟩
      rw [lookupF_append_left _ (lookupF_of_mem_nodup hndC1 hmem1), hv1]
    have hsome : ∀ k ∈ (fs.map Prod.fst).filter (fun k => hasKey gs k),
        (lookupF fs k).isSome ∧ (lookupF gs k).isSome := by
      intro k hk
      rcases List.mem_filter.mp hk with ⟨hmem, hgk⟩
      exact ⟨mem_map_fst_isSome hmem, by simpa [hasKey] using hgk⟩
    obtain ⟨D, hD, hDnd, hDkeys, hDout, hDin⟩ := stage3 fs gs hnfs hngs
      (fun cs1 cs2 hlt => ih cs1 cs2 (by omega))
      ((fs.map Prod.fst).filter (fun k => hasKey gs k))
      (fs.filter (fun p => hasKey gs p.1) ++ gs.filter (fun p => !(hasKey fs p.1)))
      hksnd hinv hsome hndC2
    refine ⟨D, ?_, ?_⟩
    · rw [deepCompare_obj fs gs "", generatePatch_append, generatePatch_append,
        applyPatch_append, applyPatch_append, hstage1, Option.some_bind, hstage2,
        Option.some_bind, generatePatch_flatMap]
      exact hD
    · rw [jsonEquiv_obj]
      simp only [Bool.and_eq_true]
      constructor
      · apply subEquiv_of_forall
        intro p hp
        obtain ⟨x, w⟩ := p
        have hDx : lookupF D x = some w := lookupF_of_mem_nodup hDnd hp
        have hxkeys : x ∈ D.map Prod.fst := List.mem_map.mpr ⟨(x, w), hp, rfl⟩
        rw [hDkeys, List.map_append] at hxkeys
        rcases List.mem_append.mp hxkeys with hx1 | hx2
        · have hxks : x ∈ (fs.map Prod.fst).filter (fun k => hasKey gs k) := by
            rw [← map_fst_filter_comm]
            exact hx1
          obtain ⟨w', v2, hw', hv2, hequiv⟩ := hDin x hxks
          rw [hDx] at hw'
          injection hw' with hww
          refine ⟨v2, hv2, ?_⟩
          show jsonEquiv w v2 = true
          rw [hww]
          exact hequiv
        · rcases List.mem_map.mp hx2 with ⟨q, hq, rfl⟩
          have hqf : hasKey fs q.1 = false := by
            have := (List.mem_filter.mp hq).2
            simpa using this
          have hxnotks : q.1 ∉ (fs.map Prod.fst).filter (fun k => hasKey gs k) := by
            intro hc
            have h1 : (lookupF fs q.1).isSome = true :=
              mem_map_fst_isSome (List.mem_filter.mp hc).1
            rw [hasKey] at hqf
            rw [hqf] at h1
            simp at h1
          have hC1none : lookupF (fs.filter (fun p => hasKey gs p.1)) q.1 = none := by
            cases hl : lookupF (fs.filter (fun p => hasKey gs p.1)) q.1
            · rfl
            · exfalso
              have hhk : hasKey (fs.filter (fun p => hasKey gs p.1)) q.1 = true := by
                rw [hasKey, hl]
                rfl
              have h2 := hasKey_filter_imp hhk
              rw [hasKey] at hqf
              rw [hasKey] at h2
              rw [hqf] at h2
              simp at h2
          have hladds : lookupF (gs.filter (fun p => !(hasKey fs p.1))) q.1 =
              some q.2 := lookupF_of_mem_nodup hnd_adds hq
          have hDq2 : lookupF D q.1 = some q.2 := by
            rw [hDout q.1 hxnotks, lookupF_append_right _ hC1none, hladds]
          rw [hDx] at hDq2
          injection hDq2 with hww
          have hqgs : q ∈ gs := (List.mem_filter.mp hq).1
          have hgsl : lookupF gs q.1 = some q.2 := lookupF_of_mem_nodup hndg hqgs
          refine ⟨q.2, hgsl, ?_⟩
          show jsonEquiv w q.2 = true
          rw [hww]
          exact jsonEquiv_refl_nice (niceFields_mem hnfg q hqgs).2
      · rw [List.all_eq_true]
        intro p hp
        have hpg : hasKey gs p.1 = true := by
          rw [hasKey]
          exact mem_map_fst_isSome (List.mem_map.mpr ⟨p, hp, rfl⟩)
        by_cases hf : hasKey fs p.1 = true
        · have hks2 : p.1 ∈ (fs.map Prod.fst).filter (fun k => hasKey gs k) :=
            List.mem_filter.mpr ⟨hasKey_mem hf, by simpa using hpg⟩
          obtain ⟨w', v2, hw', _, _⟩ := hDin p.1 hks2
          rw [hasKey, hw']
          rfl
        · have hff : hasKey fs p.1 = false := by
            cases h' : hasKey fs p.1
            · rfl
            · exact absurd h' hf
          have hpadds : p ∈ gs.filter (fun p => !(hasKey fs p.1)) :=
            List.mem_filter.mpr ⟨hp, by rw [hff]; rfl⟩
          have hmem2 : p.1 ∈ D.map Prod.fst := by
            rw [hDkeys, List.map_append]
            exact List.mem_append.mpr (Or.inr (List.mem_map.mpr ⟨p, hpadds, rfl⟩))
          rw [hasKey]
          exact mem_map_fst_isSome hmem2

/-- C1 counterexample: for A = `{}` and B = `{"a.b": 1}` the compiled
patch of the diff does not reproduce B: the record address `a.b` (one
key containing a dot) compiles to the pointer `/a/b` (two segments), so
applyPatch builds the nested tree `{a:{b:1}}` instead of restoring the
single dotted key, and the result is not structurally equal to B. -/
theorem dotted_key_breaks_roundtrip :
    applyPatch (.obj []) (generatePatch (deepCompare (.obj [])
        (.obj [("a.b", .num 1)]) "")) =
      some (.obj [("a", .obj [("b", .num 1)])]) ∧
    jsonEquiv (.obj [("a", .obj [("b", .num 1)])]) (.obj [("a.b", .num 1)]) = false := by
  constructor
  · have hdc : deepCompare (.obj []) (.obj [("a.b", .num 1)]) "" =
        [⟨.N, "a.b", none, some (.num 1)⟩] := by
      rw [deepCompare_obj]
      simp [hasKey, lookupF, dotPath]
    rw [hdc]
    simp [generatePatch, replaceDots, applyPatch, applyOne, finalOp, pointerParts,
      jsSplit, splitAux, lookupF, setKey]
  · simp [jsonEquiv, subEquiv, lookupF, hasKey]

/-- C1 amended: the diff-then-patch round trip holds up to
order-insensitive structural equality for object trees whose containers
are objects only (no arrays) and whose keys are nonempty, free of `.`
and `/`, and without duplicates: applying the compiled patch of
deepCompare(A, B) to A succeeds and yields a tree jsonEquiv-equal to B.
It fails in general: a key containing a dot is split into nested
pointer segments (see the counterexample), array containers go through
splice/index paths with different semantics, and an object's key order
after patching differs from B's when B reorders keys (hence equality
only up to jsonEquiv). -/
theorem diff_patch_roundtrip (A B : List (String × Json))
    (hA : niceJson (.obj A) = true) (hB : niceJson (.obj B) = true) :
    ∃ r, applyPatch (.obj A) (generatePatch (deepCompare (.obj A) (.obj B) "")) =
      some r ∧ jsonEquiv r (.obj B) = true := by
  obtain ⟨rf, h1, h2⟩ := diff_patch_aux (sizeOf A + sizeOf B) A B (Nat.le_refl _) hA hB
  exact ⟨.obj rf, h1, h2⟩

/-- Closed instance of `diff_patch_roundtrip` at A = `{a:{b:1}}`,
B = `{a:2, c:3}`. -/
theorem diff_patch_roundtrip_witness :
    niceJson (.obj [("a", .obj [("b", .num 1)])]) = true ∧
    niceJson (.obj [("a", .num 2), ("c", .num 3)]) = true ∧
    ∃ r, applyPatch (.obj [("a", .obj [("b", .num 1)])])
        (generatePatch (deepCompare (.obj [("a", .obj [("b", .num 1)])])
          (.obj [("a", .num 2), ("c", .num 3)]) "")) = some r ∧
      jsonEquiv r (.obj [("a", .num 2), ("c", .num 3)]) = true :=
  ⟨by simp [niceJson, niceFields, niceKey, dotFreeKey, nodupKeys, hasKey, lookupF],
    by simp [niceJson, niceFields, niceKey, dotFreeKey, nodupKeys, hasKey, lookupF],
    diff_patch_roundtrip [("a", .obj [("b", .num 1)])] [("a", .num 2), ("c", .num 3)]
      (by simp [niceJson, niceFields, niceKey, dotFreeKey, nodupKeys, hasKey, lookupF])
      (by simp [niceJson, niceFields, niceKey, dotFreeKey, nodupKeys, hasKey, lookupF])⟩

end JsonDiff
